import Mathlib

/-!
Shallow embedding, over exact rational arithmetic, of the MindSpore Mixtral
model in `mindnlp/transformers/models/mixtral/modeling_mixtral.py`.

Tensors are nested lists of rationals.  The framework primitives that are
transcendental in the source are passed as explicit function parameters, so
every definition stays executable and the theorems quantify over all
instantiations of those primitives:

* `expF` — the exponential used inside `ops.softmax`;
* `actF` — the activation `ACT2FN[config.hidden_act]`;
* `rsqrtF` — `ops.rsqrt` in `MixtralRMSNorm.forward`;
* `cosT`/`sinT` — the cosine/sine caches of `MixtralRotaryEmbedding`
  (position ↦ head_dim-sized row of `cos_cached` / `sin_cached`);
* `sqrtHd` — the scalar `math.sqrt(self.head_dim)` of `MixtralAttention`.

`attention_dropout` and the classifier dropout are modelled in evaluation
mode (identity), matching `model.set_train(False)` in the test suite.
-/

namespace Mixtral

/-- A vector: one row of a 2-D tensor. -/
abbrev Vec := List ℚ

/-- A matrix: a 2-D tensor as its list of rows. -/
abbrev Mat := List Vec

/-- Dot product of two vectors (`ops.matmul` at the level of one row/column). -/
def dot (a b : Vec) : ℚ := (List.zipWith (· * ·) a b).sum

/-- Application of `nn.Linear(in, out, bias=False)` with weight matrix `w`
(rows indexed by output features) to one input vector. -/
def matVec (w : Mat) (x : Vec) : Vec := w.map (fun r => dot r x)

/-- Elementwise sum of two vectors (residual additions, `index_add` rows). -/
def addVec (a b : Vec) : Vec := List.zipWith (· + ·) a b

/-- Scalar multiple of a vector (`tensor * scalar`). -/
def smul (c : ℚ) (v : Vec) : Vec := v.map (fun x => c * x)

/-- The all-zero vector `ops.zeros(n)`. -/
def zeros (n : ℕ) : Vec := List.replicate n 0

/-- Sum of squares of the entries of a vector (its squared Euclidean norm). -/
def sumSq (v : Vec) : ℚ := (v.map (fun x => x * x)).sum

/-- Softmax of one row, with the exponential passed as a parameter `ef`:
`softmax(l)_i = ef l_i / Σ_j ef l_j`.  Models `ops.softmax(·, dim=-1)` on a
single row. -/
def softmaxExp (ef : ℚ → ℚ) (l : List ℚ) : List ℚ :=
  let e := l.map ef
  e.map (fun x => x / e.sum)

/-! ### Top-k selection (`ops.topk(·, k, dim=-1)` on one row)

`ops.topk` returns the `k` largest entries of a row together with their
indices, largest first, ties resolved towards the smaller index.  We model it
by repeatedly selecting, among the not-yet-chosen indices, the first index of
maximal value. -/

/-- First pair of maximal second component in a nonempty list of
(index, value) pairs; `(0, 0)` on the empty list. -/
def pickMax : List (ℕ × ℚ) → ℕ × ℚ
  | [] => (0, 0)
  | c :: cs => cs.foldl (fun b x => if b.2 < x.2 then x else b) c

/-- Index of the maximal entry of `l` among indices not in `used`
(first such index in case of ties). -/
def selectIdx (l : List ℚ) (used : List ℕ) : ℕ :=
  (pickMax (l.enum.filter (fun p => p.1 ∉ used))).1

/-- Iterated selection of `k` distinct indices of maximal value. -/
def topkIdxAux (l : List ℚ) : ℕ → List ℕ → List ℕ
  | 0, _ => []
  | k + 1, used =>
    let i := selectIdx l used
    i :: topkIdxAux l k (used ++ [i])

/-- Indices returned by `ops.topk(l, k, dim=-1)`. -/
def topkIdx (l : List ℚ) (k : ℕ) : List ℕ := topkIdxAux l k []

/-- Values returned by `ops.topk(l, k, dim=-1)`. -/
def topkVals (l : List ℚ) (k : ℕ) : List ℚ := (topkIdx l k).map (fun i => l.getD i 0)

/-! ### `MixtralBlockSparseTop2MLP` and `MixtralSparseMoeBlock` -/

/-- Weights of one expert (`MixtralBlockSparseTop2MLP.__init__`): three
bias-free linear layers `w1 : hidden→ffn`, `w2 : ffn→hidden`,
`w3 : hidden→ffn`. -/
structure ExpertParams where
  w1 : Mat
  w2 : Mat
  w3 : Mat

/-- Default expert used only as the `getD` fallback when indexing the expert
list; never reached for in-range indices. -/
def defaultExpert : ExpertParams := ⟨[], [], []⟩

/-- `MixtralBlockSparseTop2MLP.forward`:
`w2(act_fn(w1(x)) * w3(x))`, with the activation passed as `af`. -/
def expertForward (af : ℚ → ℚ) (ep : ExpertParams) (x : Vec) : Vec :=
  matVec ep.w2 (List.zipWith (· * ·) ((matVec ep.w1 x).map af) (matVec ep.w3 x))

/-- Weights of `MixtralSparseMoeBlock`: the gate
(`nn.Linear(hidden_dim, num_experts, bias=False)`), the expert list, and
`top_k = config.num_experts_per_tok`. -/
structure MoeParams where
  gate : Mat
  experts : List ExpertParams
  topK : ℕ

/-- Normalised top-k routing weights of one token, as computed in
`MixtralSparseMoeBlock.forward` lines 717–719: softmax of the gate logits,
top-k values, then division by their sum. -/
def routingFor (ef : ℚ → ℚ) (mp : MoeParams) (x : Vec) : List ℚ :=
  let r := softmaxExp ef (matVec mp.gate x)
  let v := topkVals r mp.topK
  v.map (fun y => y / v.sum)

/-- Tokens routed to expert `e` at top-k slot `j`: the token indices `t` with
`selected_experts[t][j] = e`; the default `e+1` in `getD` never matches, so
out-of-range accesses select nothing.  This is one column block of
`expert_mask = one_hot(selected_experts, E).permute(2, 1, 0)`. -/
def expertTokens (sel : List (List ℕ)) (e : ℕ) (j : ℕ) : List ℕ :=
  (List.range sel.length).filter (fun t => (sel.getD t []).getD j (e + 1) = e)

/-- The `(slot, token)` pairs produced by
`ops.nonzero(expert_mask[expert_idx])` followed by `tensor_split(2, 1)`:
row-major over the `(top_k, tokens)` mask, i.e. slot-major. -/
def expertPairs (sel : List (List ℕ)) (k : ℕ) (e : ℕ) : List (ℕ × ℕ) :=
  ((List.range k).map (fun j => (expertTokens sel e j).map (fun t => (j, t)))).flatten

/-- `final_hidden_states.index_add(0, [t], [v])`: add `v` into row `t`. -/
def updateAdd (m : Mat) (t : ℕ) (v : Vec) : Mat := m.set t (addVec (m.getD t []) v)

/-- The contribution a single `(slot, token)` pair adds during expert `e`'s
turn of the loop in `MixtralSparseMoeBlock.forward` lines 732–747:
`expert_layer(hidden_states[t]) * routing_weights[t, j]`. -/
def moeContrib (ef af : ℚ → ℚ) (mp : MoeParams) (xs : Mat) (e j t : ℕ) : Vec :=
  smul ((routingFor ef mp (xs.getD t [])).getD j 0)
    (expertForward af (mp.experts.getD e defaultExpert) (xs.getD t []))

/-- The token-major body of `MixtralSparseMoeBlock.forward` (lines 712–747)
on an already flattened `(tokens, hidden_dim)` matrix `xs`: gate, softmax,
top-k, weight normalisation, then the loop over experts that gathers each
expert's tokens and scatters the weighted expert outputs back with
`index_add`.  `H` is `hidden_dim` as read off the input shape. -/
def moeScatter (ef af : ℚ → ℚ) (mp : MoeParams) (H : ℕ) (xs : Mat) : Mat :=
  let sel := xs.map (fun x => topkIdx (softmaxExp ef (matVec mp.gate x)) mp.topK)
  let init : Mat := List.replicate xs.length (zeros H)
  (List.range mp.experts.length).foldl (fun acc e =>
    (expertPairs sel mp.topK e).foldl (fun acc2 p =>
      updateAdd acc2 p.2 (moeContrib ef af mp xs e p.1 p.2)) acc) init

/-- `MixtralSparseMoeBlock.forward` on the flattened token matrix: the
scattered hidden states together with `router_logits = gate(hidden_states)`. -/
def moeForward (ef af : ℚ → ℚ) (mp : MoeParams) (H : ℕ) (xs : Mat) : Mat × Mat :=
  (moeScatter ef af mp H xs, xs.map (matVec mp.gate))

/-- `hidden_states.view(-1, hidden_dim)` undone:
`final_hidden_states.reshape(batch_size, sequence_length, hidden_dim)`. -/
def unflatten (B S : ℕ) (m : Mat) : List Mat :=
  (List.range B).map (fun b => (m.drop (b * S)).take S)

/-- `MixtralSparseMoeBlock.forward` on a `(batch, seq_len, hidden_dim)`
tensor: flatten to `(batch*seq_len, hidden_dim)` reading `hidden_dim` off the
input shape, run the token-major body, reshape back; also return the router
logits. -/
def moeBlock3d (ef af : ℚ → ℚ) (mp : MoeParams) (h : List Mat) : List Mat × Mat :=
  let B := h.length
  let S := (h.getD 0 []).length
  let H := ((h.getD 0 []).getD 0 []).length
  let flat := h.flatten
  (unflatten B S (moeScatter ef af mp H flat), flat.map (matVec mp.gate))

/-- The dense full-capacity mixture-of-experts value of one token: the sum
over all experts `e` of (normalised routing weight of `e` for this token if
`e` is among its top-k experts, else `0`) times expert `e`'s MLP applied to
the token. -/
def moeTokenDense (ef af : ℚ → ℚ) (mp : MoeParams) (H : ℕ) (x : Vec) : Vec :=
  let sel := topkIdx (softmaxExp ef (matVec mp.gate x)) mp.topK
  let w := routingFor ef mp x
  (List.range mp.experts.length).foldl (fun acc e =>
    addVec acc (smul (if e ∈ sel then w.getD (sel.indexOf e) 0 else 0)
      (expertForward af (mp.experts.getD e defaultExpert) x))) (zeros H)

/-- Well-formedness of the sparse-MoE weights against hidden size `H`: the
gate is nonempty, `top_k` does not exceed the number of experts, the expert
list matches the gate's output dimension (`config.num_local_experts`), and
every expert's `w2` produces `hidden_dim` outputs. -/
def MoeWF (H : ℕ) (mp : MoeParams) : Prop :=
  0 < mp.gate.length ∧ mp.topK ≤ mp.gate.length ∧
    mp.experts.length = mp.gate.length ∧ ∀ ep ∈ mp.experts, ep.w2.length = H

/-! ### `MixtralPreTrainedModel._init_weights` (lines 880–894)

The stochastic draws are passed in as explicit data (`draw`), so the
deterministic part of the initialisation — which rows get overwritten —
is what the embedding captures. -/

/-- `_init_weights` on an `nn.Embedding` cell: take the freshly drawn normal
weight, then zero the `padding_idx` row **when `cell.padding_idx` is truthy**
(`if cell.padding_idx:` — false both for `None` and for index `0`). -/
def initEmbeddingWeight (draw : Mat) (paddingIdx : Option ℕ) : Mat :=
  match paddingIdx with
  | none => draw
  | some i => if i = 0 then draw else draw.set i (zeros ((draw.getD i []).length))

/-- The behaviour documented in the `MixtralPreTrainedModel` docstring (and
stated by the spec): zero the `padding_idx` row whenever the embedding has a
`padding_idx` at all. -/
def initEmbeddingWeightDoc (draw : Mat) (paddingIdx : Option ℕ) : Mat :=
  match paddingIdx with
  | none => draw
  | some i => draw.set i (zeros ((draw.getD i []).length))

/-- `_init_weights` on an `nn.Linear` cell: the weight becomes the fresh
normal draw and the bias, when present, is zeroed. -/
def initLinear (drawW : Mat) (bias : Option Vec) : Mat × Option Vec :=
  (drawW, bias.map (fun b => zeros b.length))

/-! ### `load_balancing_loss_func` (lines 53–123) -/

/-- The `gate_logits` argument of `load_balancing_loss_func`: `None`, a bare
tensor, or a tuple of per-layer `(tokens, num_experts)` router-logit
tensors. -/
inductive GateLogitsArg
  | noneArg : GateLogitsArg
  | tensorArg : Mat → GateLogitsArg
  | tupleArg : List Mat → GateLogitsArg

/-- The result of `load_balancing_loss_func`: either the Python integer `0`
returned by the early exit, or a computed scalar tensor loss. -/
inductive AuxLossResult
  | intZero : AuxLossResult
  | tensorLoss : ℚ → AuxLossResult

/-- Elementwise sum of a stack of equally shaped matrices. -/
def sumStack (ms : List Mat) : Mat :=
  match ms with
  | [] => []
  | m :: rest => rest.foldl (fun acc x => List.zipWith addVec acc x) m

/-- Elementwise sum of a stack of equally long rows. -/
def sumRows (rs : List Vec) : Vec :=
  match rs with
  | [] => []
  | r :: rest => rest.foldl addVec r

/-- `F.one_hot(i, n)` as a rational row. -/
def oneHot (n i : ℕ) : Vec := (List.range n).map (fun e => if i = e then 1 else 0)

/-- `load_balancing_loss_func`.  Returns the integer `0` when `gate_logits`
is `None` or not a tuple; otherwise concatenates the per-layer logits,
computes softmax routing weights, top-k selections and the one-hot expert
mask, and forms the Switch-Transformer auxiliary loss, with the
`attention_mask` branch included (`L` layers inferred as
`tokens / (batch*seq)` and the mask broadcast across layers, slots and
experts exactly as in lines 94–120). -/
def load_balancing_loss_func (ef : ℚ → ℚ) (gateLogits : GateLogitsArg)
    (numExperts topK : ℕ) (attentionMask : Option Mat) : AuxLossResult :=
  match gateLogits with
  | .noneArg => .intZero
  | .tensorArg _ => .intZero
  | .tupleArg ms =>
    let concatenated := ms.flatten
    let routingWeights := concatenated.map (softmaxExp ef)
    let selected := routingWeights.map (fun r => topkIdx r topK)
    let expertMask : List Mat := selected.map (fun row => row.map (oneHot numExperts))
    match attentionMask with
    | none =>
      let T : ℚ := (concatenated.length : ℚ)
      let tokensPerExpert := (sumStack expertMask).map (fun r => r.map (fun x => x / T))
      let routerProbPerExpert := (sumRows routingWeights).map (fun x => x / T)
      .tensorLoss
        (((tokensPerExpert.map (fun r => (List.zipWith (· * ·) r routerProbPerExpert).sum)).sum)
          * (numExperts : ℚ))
    | some am =>
      let B := am.length
      let S := (am.getD 0 []).length
      let L := concatenated.length / (B * S)
      let flatMask : List ℚ := ((List.range L).map (fun _ => am.flatten)).flatten
      let expertAttnMask : List Mat :=
        flatMask.map (fun w => List.replicate topK (List.replicate numExperts w))
      let num := sumStack (List.zipWith (fun em wm =>
        List.zipWith (fun r1 r2 => List.zipWith (· * ·) r1 r2) em wm) expertMask expertAttnMask)
      let den := sumStack expertAttnMask
      let tokensPerExpert := List.zipWith (fun r1 r2 => List.zipWith (· / ·) r1 r2) num den
      let routerAttnMask : List Vec := flatMask.map (fun w => List.replicate numExperts w)
      let rpNum := sumRows (List.zipWith (fun r m => List.zipWith (· * ·) r m)
        routingWeights routerAttnMask)
      let rpDen := sumRows routerAttnMask
      let routerProbPerExpert := List.zipWith (· / ·) rpNum rpDen
      .tensorLoss
        (((tokensPerExpert.map (fun r => (List.zipWith (· * ·) r routerProbPerExpert).sum)).sum)
          * (numExperts : ℚ))

/-! ### `MixtralRMSNorm` and rotary position embeddings -/

/-- `MixtralRMSNorm.forward`: scale by `rsqrt(mean(x²) + eps)` (with
`ops.rsqrt` passed as `rf`) and multiply by the learned weight. -/
def rmsnorm (rf : ℚ → ℚ) (w : Vec) (eps : ℚ) (x : Vec) : Vec :=
  let variance := (x.map (fun y => y * y)).sum / (x.length : ℚ)
  List.zipWith (· * ·) w (x.map (fun y => y * rf (variance + eps)))

/-- `rotate_half`: split the last dimension in two with `tensor_split(2, -1)`
(the first chunk gets the extra element for odd lengths) and return
`cat((-x2, x1))`. -/
def rotate_half (x : Vec) : Vec :=
  let x1 := x.take ((x.length + 1) / 2)
  let x2 := x.drop ((x.length + 1) / 2)
  x2.map (fun y => -y) ++ x1

/-- The core of `apply_rotary_pos_emb` on one head vector, with the cosine
and sine rows already looked up at the vector's position:
`q * cos + rotate_half(q) * sin`. -/
def applyRot (c s q : Vec) : Vec :=
  addVec (List.zipWith (· * ·) q c) (List.zipWith (· * ·) (rotate_half q) s)

/-! ### `MixtralAttention` (lines 380–555)

The embedding is per batch element (attention never mixes batch rows) and
per position: `q_proj`/`k_proj`/`v_proj` are applied to one token's hidden
state, the result is viewed as `num_heads` (resp. `num_key_value_heads`)
slices of `head_dim`, rotary embeddings are applied at the token's absolute
position, and `repeat_kv` becomes the head index map `h ↦ h / n_rep`.
The additive `-inf` causal mask followed by `ops.softmax` is modelled by
zeroing the exponentials of masked positions. -/

/-- Weights and static configuration of one `MixtralAttention` layer. -/
structure AttnParams where
  qProj : Mat
  kProj : Mat
  vProj : Mat
  oProj : Mat
  numHeads : ℕ
  numKVHeads : ℕ
  headDim : ℕ
  sqrtHd : ℚ
  cosT : ℕ → Vec
  sinT : ℕ → Vec

/-- One `head_dim`-sized slice of a projected vector: head `h` of the
`view(bsz, q_len, num_heads, head_dim)` reshape. -/
def headSlice (d h : ℕ) (v : Vec) : Vec := (v.drop (h * d)).take d

/-- A cache entry for one position: its rotated key heads and its value
heads (`num_key_value_heads` vectors of `head_dim` each). -/
abbrev KV := List Vec × List Vec

/-- Key and value heads of one token at absolute position `pos`: project,
slice into `num_key_value_heads` heads, rotate the keys. -/
def kvAt (p : AttnParams) (pos : ℕ) (x : Vec) : KV :=
  ((List.range p.numKVHeads).map (fun h =>
      applyRot (p.cosT pos) (p.sinT pos) (headSlice p.headDim h (matVec p.kProj x))),
   (List.range p.numKVHeads).map (fun h => headSlice p.headDim h (matVec p.vProj x)))

/-- Key/value entries of a run of consecutive tokens starting at absolute
position `pos`; `past_key_value.update` is the `past ++ kvSeq …`
concatenation at the call site. -/
def kvSeq (p : AttnParams) : ℕ → List Vec → List KV
  | _, [] => []
  | pos, x :: xs => kvAt p pos x :: kvSeq p (pos + 1) xs

/-- Masked softmax: the attention-mask rows built by
`_prepare_4d_causal_attention_mask` hold `0` on visible positions and a
large negative value on hidden ones and are added to the scores before
`ops.softmax`; in exact arithmetic a hidden position contributes
exponential `0`. -/
def maskedWeights (ef : ℚ → ℚ) (scores : List ℚ) (flags : List Bool) : List ℚ :=
  let e := List.zipWith (fun sc f => if f then ef sc else 0) scores flags
  e.map (fun x => x / e.sum)

/-- `ops.matmul(attn_weights, value_states)` for one head: the weighted sum
of the value vectors (`d = head_dim`). -/
def weightedSum (d : ℕ) (ws : List ℚ) (vs : List Vec) : Vec :=
  (List.zipWith smul ws vs).foldl addVec (zeros d)

/-- The per-head attention outputs of one query token at absolute position
`pos` against the cache `kvs` under the mask row `flags`: rotated query
heads, scores `q·k / sqrt(head_dim)` (with `repeat_kv` as the head map
`h / (num_heads / num_key_value_heads)`), masked softmax, weighted values. -/
def attnHeadVecs (ef : ℚ → ℚ) (p : AttnParams) (kvs : List KV) (flags : List Bool)
    (pos : ℕ) (x : Vec) : List Vec :=
  (List.range p.numHeads).map (fun h =>
    let q := applyRot (p.cosT pos) (p.sinT pos) (headSlice p.headDim h (matVec p.qProj x))
    let kvh := h / (p.numHeads / p.numKVHeads)
    weightedSum p.headDim
      (maskedWeights ef (kvs.map (fun kv => dot q (kv.1.getD kvh []) / p.sqrtHd)) flags)
      (kvs.map (fun kv => kv.2.getD kvh [])))

/-- The head tensor for every query of the new run: element `i` is the list
of head outputs for the query at absolute position `pos + i`, whose mask row
is `mask[i]`. -/
def attnAllHeads (ef : ℚ → ℚ) (p : AttnParams) (kvs : List KV) :
    ℕ → List (List Bool) → List Vec → List (List Vec)
  | _, _, [] => []
  | pos, mask, x :: xs =>
    attnHeadVecs ef p kvs (mask.getD 0 []) pos x ::
      attnAllHeads ef p kvs (pos + 1) mask.tail xs

/-- `MixtralAttention.forward` on one batch element: compute the new
key/value entries at absolute positions `past.length, …`, concatenate them
onto the cache (`past_key_value.update`), attend every new query against the
whole cache under its mask row, concatenate the heads
(`swapaxes(1,2).reshape`) and apply `o_proj`.  Returns the attention output
and the updated cache. -/
def attention (ef : ℚ → ℚ) (p : AttnParams) (past : List KV)
    (mask : List (List Bool)) (xs : List Vec) : List Vec × List KV :=
  let kvs := past ++ kvSeq p past.length xs
  ((attnAllHeads ef p kvs past.length mask xs).map (fun hs => matVec p.oProj hs.flatten),
   kvs)

/-- Modelled from the spec: `_prepare_4d_causal_attention_mask` (imported
from `...modeling_attn_mask_utils`, not under `src/`) builds, for a query
run of length `qLen` preceded by `pastLen` cached positions, the causal mask
in which the query at row `i` sees exactly the key positions
`j ≤ pastLen + i` (`sliding_window = None`, the Mixtral default). -/
def prepare4dCausalMask (pastLen qLen : ℕ) : List (List Bool) :=
  (List.range qLen).map (fun i =>
    (List.range (pastLen + qLen)).map (fun j => decide (j ≤ pastLen + i)))

/-! ### `MixtralDecoderLayer` and `MixtralModel` -/

/-- The transcendental primitives shared by every layer, plus
`config.rms_norm_eps`. -/
structure Prims where
  expF : ℚ → ℚ
  actF : ℚ → ℚ
  rsqrtF : ℚ → ℚ
  eps : ℚ

/-- Weights of one `MixtralDecoderLayer`. -/
structure LayerParams where
  attn : AttnParams
  moe : MoeParams
  inputLayernorm : Vec
  postAttentionLayernorm : Vec

/-- `MixtralDecoderLayer.forward` on one batch element:
`h = x + Attn(input_layernorm(x))` then
`h' = h + SparseMoE(post_attention_layernorm(h))`, with `hidden_dim` for the
MoE block read off the input shape exactly as the source reads
`hidden_states.shape`.  Returns the hidden states and the updated cache. -/
def decoderLayer (pr : Prims) (lp : LayerParams) (past : List KV)
    (mask : List (List Bool)) (xs : List Vec) : List Vec × List KV :=
  let h1 := xs.map (rmsnorm pr.rsqrtF lp.inputLayernorm pr.eps)
  let ao := attention pr.expF lp.attn past mask h1
  let h2 := List.zipWith addVec xs ao.1
  let h3 := h2.map (rmsnorm pr.rsqrtF lp.postAttentionLayernorm pr.eps)
  let mo := moeScatter pr.expF pr.actF lp.moe ((h3.getD 0 []).length) h3
  (List.zipWith addVec h2 mo, ao.2)

/-- The decoder-layer loop of `MixtralModel.forward`: layer `i` reads its
own cache `pasts[i]`, every layer receives the same 4-D mask, and the
updated caches are collected in order. -/
def runLayers (pr : Prims) :
    List LayerParams → List (List KV) → List (List Bool) → List Vec →
      List Vec × List (List KV)
  | [], _, _, xs => (xs, [])
  | lp :: rest, pasts, mask, xs =>
    let r1 := decoderLayer pr lp (pasts.getD 0 []) mask xs
    let r2 := runLayers pr rest pasts.tail mask r1.1
    (r2.1, r1.2 :: r2.2)

/-- Weights of `MixtralModel`: token embedding, decoder layers, final norm. -/
structure ModelParams where
  embed : Mat
  layers : List LayerParams
  normW : Vec

/-- `MixtralModel.forward` on one batch element: look the tokens up in
`embed_tokens`, build the causal mask from the cached length
(`past_key_values.get_usable_length`, which also fixes
`position_ids = arange(past_len, past_len + seq_len)`), run the decoder
layers, and apply the final `MixtralRMSNorm`.  Returns the last hidden state
and the per-layer caches. -/
def modelForward (pr : Prims) (p : ModelParams) (pasts : List (List KV))
    (tokens : List ℕ) : List Vec × List (List KV) :=
  let pastLen := (pasts.getD 0 []).length
  let mask := prepare4dCausalMask pastLen tokens.length
  let embeds := tokens.map (fun t => p.embed.getD t [])
  let r := runLayers pr p.layers pasts mask embeds
  (r.1.map (rmsnorm pr.rsqrtF p.normW pr.eps), r.2)

/-! ### Well-formedness of the weights against the configured dimensions -/

/-- Attention weights consistent with hidden size `H`: `o_proj` has `H`
output rows, `v_proj` has `num_key_value_heads * head_dim` output rows (so
every value head slice has length exactly `head_dim`), and the head counts
satisfy the divisibility `MixtralAttention.__init__` relies on
(`num_key_value_groups = num_heads // num_key_value_heads` exactly). -/
def AttnWF (H : ℕ) (p : AttnParams) : Prop :=
  p.oProj.length = H ∧ p.vProj.length = p.numKVHeads * p.headDim ∧
    0 < p.numKVHeads ∧ 0 < p.numHeads ∧
    p.numKVHeads * (p.numHeads / p.numKVHeads) = p.numHeads

/-- Decoder-layer weights consistent with hidden size `H`. -/
def LayerWF (H : ℕ) (lp : LayerParams) : Prop :=
  AttnWF H lp.attn ∧ MoeWF H lp.moe ∧
    lp.inputLayernorm.length = H ∧ lp.postAttentionLayernorm.length = H

/-- Model weights consistent with hidden size `H`. -/
def ModelWF (H : ℕ) (p : ModelParams) : Prop :=
  (∀ r ∈ p.embed, r.length = H) ∧ (∀ lp ∈ p.layers, LayerWF H lp) ∧
    p.normW.length = H

/-! ### Task heads -/

/-- Batched `MixtralModel.forward` last hidden state: attention and the
residual stream never mix batch rows, and the MoE flattening is per token,
so the batched forward is the per-sequence forward mapped over the batch
(lemma `moeBlock3d_eq_map` below justifies the per-token reading of the
flattened MoE block). -/
def modelForwardB (pr : Prims) (p : ModelParams) (inputIds : List (List ℕ)) :
    List Mat :=
  inputIds.map (fun toks => (modelForward pr p [] toks).1)

/-- Weights of `MixtralForCausalLM`: the base model and the bias-free
`lm_head : hidden → vocab`. -/
structure CausalLMParams where
  model : ModelParams
  lmHead : Mat

/-- `MixtralForCausalLM.forward` logits: `lm_head` applied position-wise to
the last hidden state (`logits.float()` is the identity here). -/
def causalLMForward (pr : Prims) (q : CausalLMParams) (inputIds : List (List ℕ)) :
    List Mat :=
  (modelForwardB pr q.model inputIds).map (fun hs => hs.map (matVec q.lmHead))

/-- Errors raised on the forward path of the model code. -/
inductive FwdError
  | attnWeightsSize : FwdError
  | attnMaskSize : FwdError
  | attnOutputSize : FwdError
  | cacheNoLayerIdx : FwdError
  | bothInputs : FwdError
  | noInputs : FwdError
  | padBatch : FwdError
deriving DecidableEq

/-- Which forward-path errors are shape-mismatch checks (attention weights,
attention mask, or attention output of the wrong size). -/
def FwdError.isShapeCheck : FwdError → Bool
  | .attnWeightsSize => true
  | .attnMaskSize => true
  | .attnOutputSize => true
  | _ => false

/-- Weights of `MixtralForSequenceClassification`: the base model, the
bias-free `score : hidden → num_labels`, and `config.pad_token_id`. -/
structure SeqClsParams where
  model : ModelParams
  score : Mat
  padTokenId : Option ℕ

/-- `ops.eq(input_ids, pad_token_id).int()` on one row. -/
def eqPadRow (pad : ℕ) (toks : List ℕ) : List ℕ :=
  toks.map (fun t => if t = pad then 1 else 0)

/-- `argmax(-1)` on one integer row: the first index of maximal value
(`0` on the empty row). -/
def argmaxFirst (l : List ℕ) : ℕ :=
  match l.enum with
  | [] => 0
  | c :: cs => (cs.foldl (fun b x => if b.2 < x.2 then x else b) c).1

/-- The pooling index of one sequence when a pad token is configured:
`(argmax(eq(ids, pad).int()) - 1) % seq_len`, with the Python-style
nonnegative remainder. -/
def seqClsPoolIdx (pad : ℕ) (toks : List ℕ) : ℕ :=
  (((argmaxFirst (eqPadRow pad toks) : ℤ) - 1) % (toks.length : ℤ)).toNat

/-- The `sequence_lengths` row indices used for pooling: index `-1` (the
last position) when no pad token is configured, else the pooling index
above. -/
def seqLensOf (padTokenId : Option ℕ) (inputIds : List (List ℕ)) : List ℕ :=
  match padTokenId with
  | none => inputIds.map (fun toks => toks.length - 1)
  | some pad => inputIds.map (fun toks => seqClsPoolIdx pad toks)

/-- `MixtralForSequenceClassification.forward` pooled logits: score every
position, raise when `pad_token_id is None` and the batch size is not 1,
otherwise gather `logits[arange(batch), sequence_lengths]`. -/
def seqClsForward (pr : Prims) (q : SeqClsParams) (inputIds : List (List ℕ)) :
    Except FwdError Mat :=
  let logits := (modelForwardB pr q.model inputIds).map (fun hs => hs.map (matVec q.score))
  if q.padTokenId = none ∧ inputIds.length ≠ 1 then .error .padBatch
  else
    .ok ((List.range inputIds.length).map (fun b =>
      (logits.getD b []).getD ((seqLensOf q.padTokenId inputIds).getD b 0) []))

/-- Weights of `MixtralForTokenClassification`: the base model and the
`score : hidden → num_labels` linear layer, which keeps its bias. -/
structure TokClsParams where
  model : ModelParams
  score : Mat
  scoreBias : Vec

/-- `MixtralForTokenClassification.forward` logits: dropout in evaluation
mode is the identity, then `score` (with bias) position-wise. -/
def tokClsForward (pr : Prims) (q : TokClsParams) (inputIds : List (List ℕ)) :
    List Mat :=
  (modelForwardB pr q.model inputIds).map (fun hs =>
    hs.map (fun h => addVec (matVec q.score h) q.scoreBias))

/-! ### The architecture as stated by the spec

A second definition, written from the spec's words
(`Embedding → N × (RMSNorm → Attention → RMSNorm → Sparse MoE) → RMSNorm`),
for the refinement claims: each layer is
`h = h + Attention(RMSNorm(h))` then `h = h + SparseMoE(RMSNorm(h))`, where
the sparse MoE contribution of a token is the dense full-capacity sum over
its selected experts. -/

/-- One decoder layer as the spec states it. -/
def specLayer (pr : Prims) (lp : LayerParams) (xs : List Vec) : List Vec :=
  let h2 := List.zipWith addVec xs
    (attention pr.expF lp.attn [] (prepare4dCausalMask 0 xs.length)
      (xs.map (rmsnorm pr.rsqrtF lp.inputLayernorm pr.eps))).1
  let h3 := h2.map (rmsnorm pr.rsqrtF lp.postAttentionLayernorm pr.eps)
  List.zipWith addVec h2
    (h3.map (moeTokenDense pr.expF pr.actF lp.moe ((h3.getD 0 []).length)))

/-- The full forward pass as the spec states it: embedding, the decoder
layers in order, one final RMSNorm. -/
def specForward (pr : Prims) (p : ModelParams) (tokens : List ℕ) : List Vec :=
  (p.layers.foldl (fun h lp => specLayer pr lp h)
      (tokens.map (fun t => p.embed.getD t []))).map
    (rmsnorm pr.rsqrtF p.normW pr.eps)

/-! ### The forward path with its raise sites

The same forward pass with every `raise ValueError` of the forward path made
explicit, for the error-handling claim: the attention shape assertions
(lines 524–545), the cache-without-`layer_idx` check (lines 503–509), and
the input-specification checks of `MixtralModel.forward`
(lines 1014–1021). -/

/-- `MixtralAttention.forward` with its raise sites: the
cache-without-`layer_idx` check, then the three shape assertions on the
attention weights (`(bsz, num_heads, q_len, kv_seq_len)`, whose only
data-dependent dimension is the cache length), the attention mask
(`(bsz, 1, q_len, kv_seq_len)`) and the attention output
(`(bsz, num_heads, q_len, head_dim)`). -/
def attentionE (ef : ℚ → ℚ) (p : AttnParams) (layerIdx : Option ℕ)
    (pastArg : Option (List KV)) (mask : List (List Bool)) (xs : List Vec) :
    Except FwdError (List Vec × List KV) :=
  match pastArg, layerIdx with
  | some _, none => .error .cacheNoLayerIdx
  | _, _ =>
    let past := pastArg.getD []
    let kvs := past ++ kvSeq p past.length xs
    let kvLen := past.length + xs.length
    let heads := attnAllHeads ef p kvs past.length mask xs
    if kvs.length ≠ kvLen then .error .attnWeightsSize
    else if ¬ (mask.length = xs.length ∧ ∀ r ∈ mask, r.length = kvLen) then
      .error .attnMaskSize
    else if ¬ (∀ hs ∈ heads, hs.length = p.numHeads ∧ ∀ v ∈ hs, v.length = p.headDim) then
      .error .attnOutputSize
    else .ok (heads.map (fun hs => matVec p.oProj hs.flatten), kvs)

/-- `MixtralDecoderLayer.forward` over the explicit-error attention. -/
def decoderLayerE (pr : Prims) (lp : LayerParams) (layerIdx : Option ℕ)
    (pastArg : Option (List KV)) (mask : List (List Bool)) (xs : List Vec) :
    Except FwdError (List Vec × List KV) := do
  let h1 := xs.map (rmsnorm pr.rsqrtF lp.inputLayernorm pr.eps)
  let ao ← attentionE pr.expF lp.attn layerIdx pastArg mask h1
  let h2 := List.zipWith addVec xs ao.1
  let h3 := h2.map (rmsnorm pr.rsqrtF lp.postAttentionLayernorm pr.eps)
  pure (List.zipWith addVec h2 (moeScatter pr.expF pr.actF lp.moe ((h3.getD 0 []).length) h3),
    ao.2)

/-- The decoder-layer loop with explicit errors; `MixtralModel.__init__`
passes `layer_idx` to every layer, so layer `i` carries index `i`. -/
def runLayersE (pr : Prims) :
    List LayerParams → ℕ → List (List KV) → List (List Bool) → List Vec →
      Except FwdError (List Vec × List (List KV))
  | [], _, _, _, xs => .ok (xs, [])
  | lp :: rest, i, pasts, mask, xs => do
    let r1 ← decoderLayerE pr lp (some i) (some (pasts.getD 0 [])) mask xs
    let r2 ← runLayersE pr rest (i + 1) pasts.tail mask r1.1
    pure (r2.1, r1.2 :: r2.2)

/-- `MixtralModel.forward` (fresh pass, no incoming cache) with its raise
sites: the `input_ids`/`inputs_embeds` specification checks of lines
1014–1021 followed by the decoder-layer loop. -/
def modelForwardE (pr : Prims) (p : ModelParams) (inputIdsArg : Option (List ℕ))
    (inputsEmbedsArg : Option (List Vec)) :
    Except FwdError (List Vec × List (List KV)) :=
  match inputIdsArg, inputsEmbedsArg with
  | some _, some _ => .error .bothInputs
  | none, none => .error .noInputs
  | ids, embs =>
    let embeds :=
      match ids, embs with
      | some l, _ => l.map (fun t => p.embed.getD t [])
      | _, some e => e
      | _, _ => []
    let mask := prepare4dCausalMask 0 embeds.length
    do
      let r ← runLayersE pr p.layers 0 [] mask embeds
      pure (r.1.map (rmsnorm pr.rsqrtF p.normW pr.eps), r.2)

/-! ### Concrete example weights (hidden size 2, one layer, one head,
one expert) used to instantiate the theorems on closed inputs -/

/-- Example attention weights: one head, one key/value head, head size 2. -/
def exampleAttn : AttnParams :=
  { qProj := [[1, 0], [0, 1]]
    kProj := [[1, 1], [0, 2]]
    vProj := [[2, 0], [1, 1]]
    oProj := [[1, 1], [0, 1]]
    numHeads := 1
    numKVHeads := 1
    headDim := 2
    sqrtHd := 3 / 2
    cosT := fun pos => [(pos : ℚ) + 1, 1]
    sinT := fun pos => [(pos : ℚ), 1 / 2] }

/-- Example MoE weights: a single expert of intermediate size 1, `top_k` 1. -/
def exampleMoe : MoeParams :=
  ⟨[[1, 2]], [⟨[[1, 1]], [[1], [2]], [[2, 1]]⟩], 1⟩

/-- Example decoder layer over the example attention and MoE weights. -/
def exampleLayer : LayerParams := ⟨exampleAttn, exampleMoe, [1, 2], [2, 1]⟩

/-- Example model: vocabulary 2, one decoder layer. -/
def exampleModel : ModelParams := ⟨[[1, 0], [0, 1]], [exampleLayer], [1, 1]⟩

/-- Example primitives: concrete positive rational stand-ins for `exp`,
the activation and `rsqrt`. -/
def examplePrims : Prims := ⟨fun x => x * x + 1, fun x => x + 2, fun x => x / 3 + 1, 1 / 100⟩

/-- Proof-support view of the scatter loop: apply a list of `(row, vector)`
`index_add` updates in order. -/
def applyUpdates (m : Mat) (ups : List (ℕ × Vec)) : Mat :=
  ups.foldl (fun acc u => updateAdd acc u.1 u.2) m

/-! ## Basic lemmas about the vector operations -/

theorem length_matVec (w : Mat) (x : Vec) : (matVec w x).length = w.length :=
  List.length_map _ _

theorem length_smul (c : ℚ) (v : Vec) : (smul c v).length = v.length :=
  List.length_map _ _

theorem length_addVec (a b : Vec) : (addVec a b).length = min a.length b.length :=
  List.length_zipWith _ _ _

theorem length_zeros (n : ℕ) : (zeros n).length = n := List.length_replicate _ _

theorem addVec_zeros (a : Vec) (n : ℕ) (h : a.length ≤ n) : addVec a (zeros n) = a := by
  induction a generalizing n with
  | nil => simp [addVec]
  | cons x xs ih =>
    cases n with
    | zero => simp at h
    | succ m =>
      simp only [zeros, List.replicate_succ, addVec, List.zipWith_cons_cons, add_zero]
      exact congrArg (x :: ·) (ih m (by simpa using h))

theorem smul_zero_eq (v : Vec) : smul 0 v = zeros v.length := by
  simp [smul, zeros, List.map_eq_replicate_iff]

theorem getD_map {α β : Type} (f : α → β) (l : List α) (i : ℕ) (h : i < l.length)
    (d : α) (e : β) : (l.map f).getD i e = f (l.getD i d) := by
  rw [List.getD_eq_getElem _ _ (by simpa using h), List.getD_eq_getElem _ _ h,
    List.getElem_map]

theorem sum_map_div (l : List ℚ) (c : ℚ) : (l.map (fun y => y / c)).sum = l.sum / c := by
  induction l with
  | nil => simp
  | cons x xs ih => simp [ih, add_div]

/-! ## Lemmas about top-k selection -/

theorem pickMax_mem (c : ℕ × ℚ) (cs : List (ℕ × ℚ)) : pickMax (c :: cs) ∈ c :: cs := by
  suffices h : ∀ (b : ℕ × ℚ),
      cs.foldl (fun b x => if b.2 < x.2 then x else b) b ∈ b :: cs from h c
  induction cs with
  | nil => intro b; simp [pickMax]
  | cons x xs ih =>
    intro b
    simp only [List.foldl_cons]
    by_cases hc : b.2 < x.2
    · rw [if_pos hc]
      rcases List.mem_cons.1 (ih x) with h | h
      · rw [h]; simp
      · simp [List.mem_cons, h]
    · rw [if_neg hc]
      rcases List.mem_cons.1 (ih b) with h | h
      · rw [h]; simp
      · simp [List.mem_cons, h]

theorem selectIdx_spec (l : List ℚ) (used : List ℕ)
    (h : ∃ i, i < l.length ∧ i ∉ used) :
    selectIdx l used < l.length ∧ selectIdx l used ∉ used := by
  obtain ⟨i, hi, hni⟩ := h
  have hmem : (i, l[i]) ∈ l.enum := by
    rw [List.mem_enum_iff_getElem?]
    simp [List.getElem?_eq_getElem hi]
  have hfmem : (i, l[i]) ∈ l.enum.filter (fun p => p.1 ∉ used) := by
    rw [List.mem_filter]
    exact ⟨hmem, by simpa using hni⟩
  obtain ⟨c, cs, hcs⟩ : ∃ c cs, l.enum.filter (fun p => p.1 ∉ used) = c :: cs := by
    cases hf : l.enum.filter (fun p => p.1 ∉ used) with
    | nil => rw [hf] at hfmem; simp at hfmem
    | cons c cs => exact ⟨c, cs, rfl⟩
  have hp : pickMax (c :: cs) ∈ l.enum.filter (fun p => p.1 ∉ used) := by
    rw [hcs]; exact pickMax_mem c cs
  rw [List.mem_filter] at hp
  have h1 := hp.1
  rw [List.mem_enum_iff_getElem?] at h1
  have hlt : (pickMax (c :: cs)).1 < l.length := by
    by_contra hge
    rw [List.getElem?_eq_none (by omega)] at h1
    exact Option.noConfusion h1
  refine ⟨?_, ?_⟩
  · rw [selectIdx, hcs]; exact hlt
  · rw [selectIdx, hcs]; simpa using hp.2

theorem exists_not_mem_of_length_lt (used : List ℕ) (n : ℕ) (h : used.length < n) :
    ∃ i, i < n ∧ i ∉ used := by
  by_contra hc
  push_neg at hc
  have hsub : Finset.range n ⊆ used.toFinset := by
    intro i hi
    rw [List.mem_toFinset]
    exact hc i (Finset.mem_range.1 hi)
  have := Finset.card_le_card hsub
  rw [Finset.card_range] at this
  exact absurd (this.trans (List.toFinset_card_le used)) (by omega)

theorem topkIdxAux_spec (l : List ℚ) :
    ∀ (k : ℕ) (used : List ℕ), used.length + k ≤ l.length →
      (topkIdxAux l k used).length = k ∧
        (∀ i ∈ topkIdxAux l k used, i < l.length) ∧
        (∀ i ∈ topkIdxAux l k used, i ∉ used) ∧
        (topkIdxAux l k used).Nodup := by
  intro k
  induction k with
  | zero => intro used _; simp [topkIdxAux]
  | succ k ih =>
    intro used hlen
    have hex := exists_not_mem_of_length_lt used l.length (by omega)
    have hsel := selectIdx_spec l used hex
    have hrec := ih (used ++ [selectIdx l used]) (by simp; omega)
    simp only [topkIdxAux]
    refine ⟨by simp [hrec.1], ?_, ?_, ?_⟩
    · intro i hi
      rcases List.mem_cons.1 hi with h | h
      · exact h ▸ hsel.1
      · exact hrec.2.1 i h
    · intro i hi
      rcases List.mem_cons.1 hi with h | h
      · exact h ▸ hsel.2
      · intro hmem
        exact hrec.2.2.1 i h (by simp [hmem])
    · rw [List.nodup_cons]
      refine ⟨fun hmem => ?_, hrec.2.2.2⟩
      exact hrec.2.2.1 _ hmem (by simp)

theorem topkIdx_spec (l : List ℚ) (k : ℕ) (h : k ≤ l.length) :
    (topkIdx l k).length = k ∧ (∀ i ∈ topkIdx l k, i < l.length) ∧
      (topkIdx l k).Nodup := by
  have := topkIdxAux_spec l k [] (by simpa using h)
  exact ⟨this.1, this.2.1, this.2.2.2⟩

/-! ## Lemmas about softmax and the routing weights -/

theorem softmaxExp_length (ef : ℚ → ℚ) (l : List ℚ) :
    (softmaxExp ef l).length = l.length := by simp [softmaxExp]

theorem softmaxExp_pos (ef : ℚ → ℚ) (l : List ℚ) (hef : ∀ x, 0 < ef x)
    (hl : l ≠ []) : ∀ y ∈ softmaxExp ef l, 0 < y := by
  intro y hy
  simp only [softmaxExp, List.mem_map] at hy
  obtain ⟨z, hz, rfl⟩ := hy
  obtain ⟨x, hx, rfl⟩ := hz
  have hsum : 0 < (l.map ef).sum := by
    refine List.sum_pos _ (fun a ha => ?_) (by simpa using hl)
    obtain ⟨w, _, rfl⟩ := List.mem_map.1 ha
    exact hef w
  exact div_pos (hef x) hsum

theorem topkVals_mem (l : List ℚ) (k : ℕ) (h : k ≤ l.length) :
    ∀ y ∈ topkVals l k, y ∈ l := by
  intro y hy
  obtain ⟨i, hi, rfl⟩ := List.mem_map.1 hy
  have hval := (topkIdx_spec l k h).2.1 i hi
  rw [List.getD_eq_getElem _ _ hval]
  exact List.getElem_mem _

theorem length_topkVals (l : List ℚ) (k : ℕ) (h : k ≤ l.length) :
    (topkVals l k).length = k := by
  simpa [topkVals] using (topkIdx_spec l k h).1

/-- Claim C9: in `MixtralSparseMoeBlock.forward` the normalised top-k
routing weights of every token form a convex combination: after division by
their sum the `top_k` coefficients are nonnegative and sum exactly to `1`
(so the token's MoE output is a convex combination of its selected experts'
outputs). -/
theorem c9_routing_weights_convex (ef : ℚ → ℚ) (mp : MoeParams) (x : Vec)
    (hef : ∀ y, 0 < ef y) (hE : 0 < mp.gate.length) (hk : 0 < mp.topK)
    (hkE : mp.topK ≤ mp.gate.length) :
    (routingFor ef mp x).length = mp.topK ∧ (routingFor ef mp x).sum = 1 ∧
      ∀ w ∈ routingFor ef mp x, 0 ≤ w := by
  have hrlen : (softmaxExp ef (matVec mp.gate x)).length = mp.gate.length := by
    rw [softmaxExp_length, length_matVec]
  have hkr : mp.topK ≤ (softmaxExp ef (matVec mp.gate x)).length := by omega
  have hpos : ∀ y ∈ topkVals (softmaxExp ef (matVec mp.gate x)) mp.topK, 0 < y := by
    intro y hy
    refine softmaxExp_pos ef _ hef ?_ y (topkVals_mem _ _ hkr y hy)
    intro hnil
    have hlen0 := congrArg List.length hnil
    rw [length_matVec] at hlen0
    simp only [List.length_nil] at hlen0
    omega
  have hvlen := length_topkVals (softmaxExp ef (matVec mp.gate x)) mp.topK hkr
  have hvne : topkVals (softmaxExp ef (matVec mp.gate x)) mp.topK ≠ [] := by
    intro hnil
    rw [hnil] at hvlen
    simp at hvlen
    omega
  have hsum : 0 < (topkVals (softmaxExp ef (matVec mp.gate x)) mp.topK).sum :=
    List.sum_pos _ hpos hvne
  refine ⟨by simp [routingFor, hvlen], ?_, ?_⟩
  · rw [routingFor]
    rw [sum_map_div]
    exact div_self (ne_of_gt hsum)
  · intro w hw
    obtain ⟨y, hy, rfl⟩ := List.mem_map.1 hw
    exact le_of_lt (div_pos (hpos y hy) hsum)

/-- Witness for C9 at a concrete gate, expert set and token. -/
theorem c9_routing_weights_convex_witness :
    (routingFor (fun _ => 1) ⟨[[1, 2], [0, 1]], [defaultExpert, defaultExpert], 2⟩ [3, 1]).length = 2 ∧
      (routingFor (fun _ => 1) ⟨[[1, 2], [0, 1]], [defaultExpert, defaultExpert], 2⟩ [3, 1]).sum = 1 ∧
      ∀ w ∈ routingFor (fun _ => 1) ⟨[[1, 2], [0, 1]], [defaultExpert, defaultExpert], 2⟩ [3, 1], 0 ≤ w :=
  c9_routing_weights_convex (fun _ => 1) ⟨[[1, 2], [0, 1]], [defaultExpert, defaultExpert], 2⟩
    [3, 1] (fun _ => one_pos) (by decide) (by decide) (by decide)

/-- Claim C10: `load_balancing_loss_func` returns the integer `0` exactly
when `gate_logits` is `None` or not a tuple; on a tuple of per-layer router
logits it returns a computed tensor loss. -/
theorem c10_load_balancing_early_exit (ef : ℚ → ℚ) (gl : GateLogitsArg)
    (numExperts topK : ℕ) (am : Option Mat) :
    load_balancing_loss_func ef gl numExperts topK am = .intZero ↔
      gl = .noneArg ∨ ∃ m, gl = .tensorArg m := by
  cases gl with
  | noneArg => simp [load_balancing_loss_func]
  | tensorArg m => simp [load_balancing_loss_func]
  | tupleArg ms => cases am <;> simp [load_balancing_loss_func]

/-- Claim C8 (the code against its own documentation): with
`padding_idx = 0` the code's `if cell.padding_idx:` is falsy, so the drawn
row 0 is kept, while the documented behaviour zeroes it. -/
theorem c8_init_weights_padding_zero_divergence :
    initEmbeddingWeight [[1], [2]] (some 0) = [[1], [2]] ∧
      initEmbeddingWeightDoc [[1], [2]] (some 0) = [[0], [2]] ∧
      initEmbeddingWeight [[1], [2]] (some 0) ≠ initEmbeddingWeightDoc [[1], [2]] (some 0) := by
  refine ⟨rfl, rfl, ?_⟩
  decide

/-! ## The scatter loop of `MixtralSparseMoeBlock.forward` is the dense
full-capacity mixture per token -/

theorem length_updateAdd (m : Mat) (t : ℕ) (v : Vec) :
    (updateAdd m t v).length = m.length := List.length_set _ _ _

theorem length_applyUpdates : ∀ (ups : List (ℕ × Vec)) (m : Mat),
    (applyUpdates m ups).length = m.length
  | [], _ => rfl
  | u :: ups, m => by
    show (applyUpdates (updateAdd m u.1 u.2) ups).length = m.length
    rw [length_applyUpdates ups _, length_updateAdd]

theorem getD_updateAdd_self (m : Mat) (t : ℕ) (v : Vec) (ht : t < m.length) :
    (updateAdd m t v).getD t [] = addVec (m.getD t []) v := by
  rw [updateAdd, List.getD_eq_getElem _ _ (by rw [List.length_set]; exact ht)]
  exact List.getElem_set_self _

theorem getD_updateAdd_ne (m : Mat) (s t : ℕ) (v : Vec) (hne : s ≠ t)
    (ht : t < m.length) : (updateAdd m s v).getD t [] = m.getD t [] := by
  rw [updateAdd, List.getD_eq_getElem _ _ (by rw [List.length_set]; exact ht),
    List.getD_eq_getElem _ _ ht]
  exact List.getElem_set_ne hne _

theorem applyUpdates_getD : ∀ (ups : List (ℕ × Vec)) (m : Mat) (t : ℕ),
    t < m.length →
      (applyUpdates m ups).getD t [] =
        ((ups.filter (fun u => u.1 = t)).map (fun u => u.2)).foldl addVec (m.getD t [])
  | [], m, t, _ => rfl
  | u :: ups, m, t, ht => by
    show (applyUpdates (updateAdd m u.1 u.2) ups).getD t [] = _
    by_cases hc : u.1 = t
    · rw [List.filter_cons_of_pos (by simp [hc]), List.map_cons, List.foldl_cons,
        applyUpdates_getD ups _ t (by rw [length_updateAdd]; exact ht)]
      subst hc
      rw [getD_updateAdd_self m u.1 u.2 ht]
    · rw [List.filter_cons_of_neg (by simp [hc]),
        applyUpdates_getD ups _ t (by rw [length_updateAdd]; exact ht),
        getD_updateAdd_ne m u.1 t u.2 hc ht]

theorem flatten_filter {α : Type} (p : α → Bool) :
    ∀ L : List (List α), L.flatten.filter p = (L.map (List.filter p)).flatten
  | [] => rfl
  | l :: L => by
    rw [List.flatten_cons, List.filter_append, flatten_filter p L, List.map_cons,
      List.flatten_cons]

theorem moeScatter_eq_applyUpdates (ef af : ℚ → ℚ) (mp : MoeParams) (H : ℕ) (xs : Mat) :
    moeScatter ef af mp H xs =
      applyUpdates (List.replicate xs.length (zeros H))
        (((List.range mp.experts.length).map (fun e =>
          (expertPairs (xs.map (fun x => topkIdx (softmaxExp ef (matVec mp.gate x)) mp.topK))
              mp.topK e).map
            (fun p => (p.2, moeContrib ef af mp xs e p.1 p.2)))).flatten) := by
  rw [applyUpdates, List.foldl_flatten, List.foldl_map]
  simp only [List.foldl_map]
  rfl

theorem filter_filter_range (q : ℕ → Bool) (t : ℕ) :
    ∀ T : ℕ, ((List.range T).filter q).filter (fun s => s = t) =
      if t < T ∧ q t = true then [t] else [] := by
  intro T
  induction T with
  | zero => simp
  | succ n ih =>
    rw [List.range_succ, List.filter_append, List.filter_append, ih]
    by_cases hnt : n = t
    · subst hnt
      by_cases hq : q n
      · simp only [List.filter_cons, hq, if_true, decide_True, List.filter_nil]
        have h1 : ¬(n < n ∧ q n = true) := by omega
        have h2 : n < n + 1 ∧ q n = true := ⟨by omega, hq⟩
        simp [h1, h2]
      · simp only [List.filter_cons, hq]
        have h1 : ¬(n < n ∧ q n = true) := by simp [hq]
        have h2 : ¬(n < n + 1 ∧ q n = true) := by simp [hq]
        simp [h1, h2]
    · have hm : (t < n ∧ q t = true) ↔ (t < n + 1 ∧ q t = true) := by
        constructor
        · rintro ⟨h1, h2⟩; exact ⟨by omega, h2⟩
        · rintro ⟨h1, h2⟩; exact ⟨by omega, h2⟩
      by_cases hq : q n <;>
        simp only [List.filter_cons, hq, decide_eq_true_eq, hnt, if_false,
          List.filter_nil, List.append_nil, if_true] <;> rw [if_congr hm rfl rfl]
      simp [Ne.symm hnt]

theorem expertPairs_filter (sel : List (List ℕ)) (k e t : ℕ) :
    (expertPairs sel k e).filter (fun p => p.2 = t) =
      ((List.range k).map (fun j =>
        if t < sel.length ∧ (sel.getD t []).getD j (e + 1) = e then [(j, t)] else [])).flatten := by
  rw [expertPairs, flatten_filter, List.map_map]
  congr 1
  refine List.map_congr_left (fun j _ => ?_)
  show ((expertTokens sel e j).map (fun s => (j, s))).filter (fun p => p.2 = t) = _
  rw [List.filter_map]
  have hcomp : ((fun (p : ℕ × ℕ) => decide (p.2 = t)) ∘ fun s => (j, s)) =
      (fun s => decide (s = t)) := by
    funext s; rfl
  rw [hcomp, expertTokens, filter_filter_range]
  by_cases hc : t < sel.length ∧ ((sel.getD t []).getD j (e + 1) = e) = true
  · rw [if_pos (by simpa using hc), if_pos (by simpa using hc), List.map_cons, List.map_nil]
  · rw [if_neg (by simpa using hc), if_neg (by simpa using hc), List.map_nil]

theorem flatten_ite_single {α : Type} (x : ℕ → α) :
    ∀ (l : List ℕ), l.Nodup → ∀ (e d : ℕ),
      ((List.range l.length).map (fun j => if l.getD j d = e then [x j] else [])).flatten =
        if e ∈ l then [x (l.indexOf e)] else []
  | [], _, e, d => by simp
  | a :: l', hnd, e, d => by
    rw [List.length_cons, List.range_succ_eq_map, List.map_cons, List.flatten_cons,
      List.map_map]
    have hfun : ((fun j => if (a :: l').getD j d = e then [x j] else []) ∘ Nat.succ) =
        (fun j => if l'.getD j d = e then [x (j + 1)] else []) := by
      funext j
      simp [Function.comp, List.getD_cons_succ]
    rw [hfun, flatten_ite_single (fun j => x (j + 1)) l' ((List.nodup_cons.1 hnd).2) e d,
      List.getD_cons_zero]
    by_cases hae : a = e
    · subst hae
      have hnm : a ∉ l' := (List.nodup_cons.1 hnd).1
      simp [hnm, List.indexOf_cons_self]
    · have hmem : (e ∈ a :: l') ↔ (e ∈ l') := by
        rw [List.mem_cons]
        exact or_iff_right (fun h => hae h.symm)
      rw [if_neg hae]
      by_cases hel : e ∈ l'
      · rw [if_pos hel, if_pos (hmem.2 hel), List.nil_append,
          List.indexOf_cons_ne _ hae]
      · rw [if_neg hel, if_neg (fun h => hel (hmem.1 h)), List.nil_append]

theorem foldl_addVec_flatten (H : ℕ) :
    ∀ (es : List ℕ) (acc : Vec) (F : ℕ → List Vec) (G : ℕ → Vec),
      acc.length = H →
      (∀ e ∈ es, (∃ v, F e = [v] ∧ G e = v ∧ v.length = H) ∨ (F e = [] ∧ G e = zeros H)) →
      ((es.map F).flatten).foldl addVec acc = es.foldl (fun a e => addVec a (G e)) acc
  | [], _, _, _, _, _ => rfl
  | e :: es, acc, F, G, hacc, hF => by
    rw [List.map_cons, List.flatten_cons, List.foldl_append, List.foldl_cons]
    rcases hF e (List.mem_cons_self _ _) with ⟨v, hFe, hGe, hv⟩ | ⟨hFe, hGe⟩
    · rw [hFe, hGe]
      simp only [List.foldl_cons, List.foldl_nil]
      exact foldl_addVec_flatten H es (addVec acc v) F G
        (by rw [length_addVec, hacc, hv, min_self]) (fun x hx => hF x (List.mem_cons_of_mem _ hx))
    · rw [hFe, hGe, addVec_zeros acc H hacc.le]
      simp only [List.foldl_nil]
      exact foldl_addVec_flatten H es acc F G hacc (fun x hx => hF x (List.mem_cons_of_mem _ hx))

theorem per_expert_contribs (ef af : ℚ → ℚ) (mp : MoeParams) (xs : Mat)
    (t : ℕ) (ht : t < xs.length) (k2 : mp.topK ≤ (softmaxExp ef (matVec mp.gate (xs.getD t []))).length) (e : ℕ) :
    (((expertPairs (xs.map (fun x => topkIdx (softmaxExp ef (matVec mp.gate x)) mp.topK))
          mp.topK e).map
        (fun p => (p.2, moeContrib ef af mp xs e p.1 p.2))).filter
      (fun u => u.1 = t)).map (fun u => u.2) =
      (if e ∈ topkIdx (softmaxExp ef (matVec mp.gate (xs.getD t []))) mp.topK then
        [moeContrib ef af mp xs e
          ((topkIdx (softmaxExp ef (matVec mp.gate (xs.getD t []))) mp.topK).indexOf e) t]
      else []) := by
  set sel := xs.map (fun x => topkIdx (softmaxExp ef (matVec mp.gate x)) mp.topK) with hsel
  set selt := topkIdx (softmaxExp ef (matVec mp.gate (xs.getD t []))) mp.topK with hseltdef
  have hlen_selt : selt.length = mp.topK := (topkIdx_spec _ _ k2).1
  have hnd : selt.Nodup := (topkIdx_spec _ _ k2).2.2
  have hsel_t : sel.getD t [] = selt := by
    rw [hsel]
    exact getD_map _ xs t ht [] []
  rw [List.filter_map]
  have hcomp : ((fun (u : ℕ × Vec) => decide (u.1 = t)) ∘
      (fun p : ℕ × ℕ => (p.2, moeContrib ef af mp xs e p.1 p.2))) =
      (fun p : ℕ × ℕ => decide (p.2 = t)) := by
    funext p; rfl
  rw [hcomp, List.map_map]
  have hcomp2 : ((fun (u : ℕ × Vec) => u.2) ∘
      (fun p : ℕ × ℕ => (p.2, moeContrib ef af mp xs e p.1 p.2))) =
      (fun p : ℕ × ℕ => moeContrib ef af mp xs e p.1 p.2) := by
    funext p; rfl
  rw [hcomp2, expertPairs_filter, List.map_flatten, List.map_map]
  have hitemap : ∀ j ∈ List.range mp.topK,
      ((List.map (fun p : ℕ × ℕ => moeContrib ef af mp xs e p.1 p.2)) ∘
        (fun j => if t < sel.length ∧ (sel.getD t []).getD j (e + 1) = e then [(j, t)] else [])) j =
      (fun j => if selt.getD j (e + 1) = e then [moeContrib ef af mp xs e j t] else []) j := by
    intro j _
    have hcond : (t < sel.length ∧ (sel.getD t []).getD j (e + 1) = e) ↔
        (selt.getD j (e + 1) = e) := by
      rw [hsel_t, hsel, List.length_map]
      exact and_iff_right ht
    simp only [Function.comp]
    rw [if_congr hcond rfl rfl, apply_ite (List.map (fun p : ℕ × ℕ => moeContrib ef af mp xs e p.1 p.2)),
      List.map_cons, List.map_nil]
  rw [List.map_congr_left hitemap, ← hlen_selt,
    flatten_ite_single (fun j => moeContrib ef af mp xs e j t) selt hnd e (e + 1)]

theorem moeScatter_getD (ef af : ℚ → ℚ) (mp : MoeParams) (H : ℕ) (xs : Mat)
    (hwf : MoeWF H mp) (t : ℕ) (ht : t < xs.length) :
    (moeScatter ef af mp H xs).getD t [] = moeTokenDense ef af mp H (xs.getD t []) := by
  obtain ⟨hE, hkE, hEE, hw2⟩ := hwf
  have hk2 : mp.topK ≤ (softmaxExp ef (matVec mp.gate (xs.getD t []))).length := by
    rw [softmaxExp_length, length_matVec]; exact hkE
  rw [moeScatter_eq_applyUpdates,
    applyUpdates_getD _ _ t (by rw [List.length_replicate]; exact ht)]
  have hbase : (List.replicate xs.length (zeros H)).getD t [] = zeros H := by
    rw [List.getD_eq_getElem _ _ (by rw [List.length_replicate]; exact ht)]
    exact List.getElem_replicate _ _
  rw [hbase, flatten_filter, List.map_map, List.map_flatten, List.map_map]
  have hper : ∀ e ∈ List.range mp.experts.length,
      ((List.map (fun u : ℕ × Vec => u.2)) ∘ (List.filter (fun u : ℕ × Vec => u.1 = t)) ∘
        (fun e => (expertPairs (xs.map (fun x => topkIdx (softmaxExp ef (matVec mp.gate x)) mp.topK))
            mp.topK e).map (fun p => (p.2, moeContrib ef af mp xs e p.1 p.2)))) e =
      (fun e => if e ∈ topkIdx (softmaxExp ef (matVec mp.gate (xs.getD t []))) mp.topK then
        [moeContrib ef af mp xs e
          ((topkIdx (softmaxExp ef (matVec mp.gate (xs.getD t []))) mp.topK).indexOf e) t]
      else []) e := by
    intro e _
    simp only [Function.comp]
    exact per_expert_contribs ef af mp xs t ht hk2 e
  rw [List.map_congr_left hper]
  rw [foldl_addVec_flatten H (List.range mp.experts.length) (zeros H) _
    (fun e => smul
      (if e ∈ topkIdx (softmaxExp ef (matVec mp.gate (xs.getD t []))) mp.topK then
        (routingFor ef mp (xs.getD t [])).getD
          ((topkIdx (softmaxExp ef (matVec mp.gate (xs.getD t []))) mp.topK).indexOf e) 0
      else 0)
      (expertForward af (mp.experts.getD e defaultExpert) (xs.getD t [])))
    (length_zeros H) ?_]
  · rfl
  · intro e he
    dsimp only
    have helen : (expertForward af (mp.experts.getD e defaultExpert) (xs.getD t [])).length = H := by
      rw [expertForward, length_matVec]
      have hee : e < mp.experts.length := List.mem_range.1 he
      rw [List.getD_eq_getElem _ _ hee]
      exact hw2 _ (List.getElem_mem _)
    by_cases hmem : e ∈ topkIdx (softmaxExp ef (matVec mp.gate (xs.getD t []))) mp.topK
    · left
      refine ⟨_, if_pos hmem, ?_, ?_⟩
      · rw [if_pos hmem]; rfl
      · rw [moeContrib, length_smul]; exact helen
    · right
      refine ⟨if_neg hmem, ?_⟩
      rw [if_neg hmem, smul_zero_eq, helen]

/-- The scatter/gather loop equals the dense full-capacity formulation token
by token: the flattened MoE output is the per-token dense mixture mapped
over the tokens. -/
theorem moeScatter_eq_map (ef af : ℚ → ℚ) (mp : MoeParams) (H : ℕ) (xs : Mat)
    (hwf : MoeWF H mp) :
    moeScatter ef af mp H xs = xs.map (moeTokenDense ef af mp H) := by
  refine List.ext_getElem ?_ (fun n h1 h2 => ?_)
  · rw [moeScatter_eq_applyUpdates, length_applyUpdates, List.length_replicate,
      List.length_map]
  · have hlenS : (moeScatter ef af mp H xs).length = xs.length := by
      rw [moeScatter_eq_applyUpdates, length_applyUpdates, List.length_replicate]
    have hn : n < xs.length := by rw [List.length_map] at h2; exact h2
    have := moeScatter_getD ef af mp H xs hwf n hn
    rw [List.getD_eq_getElem _ _ h1, List.getD_eq_getElem _ _ hn] at this
    rw [this, List.getElem_map]

theorem length_moeScatter (ef af : ℚ → ℚ) (mp : MoeParams) (H : ℕ) (xs : Mat) :
    (moeScatter ef af mp H xs).length = xs.length := by
  rw [moeScatter_eq_applyUpdates, length_applyUpdates, List.length_replicate]

theorem length_foldl_addVec (H : ℕ) (G : ℕ → Vec) :
    ∀ (es : List ℕ) (acc : Vec), acc.length = H → (∀ e ∈ es, (G e).length = H) →
      (es.foldl (fun a e => addVec a (G e)) acc).length = H
  | [], _, hacc, _ => hacc
  | e :: es, acc, hacc, hG => by
    rw [List.foldl_cons]
    exact length_foldl_addVec H G es _
      (by rw [length_addVec, hacc, hG e (List.mem_cons_self _ _), min_self])
      (fun x hx => hG x (List.mem_cons_of_mem _ hx))

theorem length_moeTokenDense (ef af : ℚ → ℚ) (mp : MoeParams) (H : ℕ) (x : Vec)
    (hwf : MoeWF H mp) : (moeTokenDense ef af mp H x).length = H := by
  obtain ⟨_, _, _, hw2⟩ := hwf
  refine length_foldl_addVec H _ (List.range mp.experts.length) (zeros H)
    (length_zeros H) (fun e he => ?_)
  rw [length_smul, expertForward, length_matVec,
    List.getD_eq_getElem _ _ (List.mem_range.1 he)]
  exact hw2 _ (List.getElem_mem _)

theorem rows_moeScatter (ef af : ℚ → ℚ) (mp : MoeParams) (H : ℕ) (xs : Mat)
    (hwf : MoeWF H mp) : ∀ v ∈ moeScatter ef af mp H xs, v.length = H := by
  rw [moeScatter_eq_map ef af mp H xs hwf]
  intro v hv
  obtain ⟨x, _, rfl⟩ := List.mem_map.1 hv
  exact length_moeTokenDense ef af mp H x hwf

theorem unflatten_length (B S : ℕ) (m : Mat) : (unflatten B S m).length = B := by
  rw [unflatten, List.length_map, List.length_range]

theorem unflatten_rows (B S : ℕ) (m : Mat) (hm : m.length = B * S) :
    ∀ x ∈ unflatten B S m, x.length = S := by
  intro x hx
  obtain ⟨b, hb, rfl⟩ := List.mem_map.1 hx
  have hbB : b < B := List.mem_range.1 hb
  rw [List.length_take, List.length_drop, hm]
  have : b * S + S ≤ B * S := by
    calc b * S + S = (b + 1) * S := by ring
    _ ≤ B * S := Nat.mul_le_mul_right S hbB
  omega

/-- Claim C1: `MixtralSparseMoeBlock.forward` follows the stated recipe —
per-token softmax over the gate logits, top-k expert selection, the one-hot
expert mask, per-expert masked computation scattered back by `index_add`
(all of which is the definition of `moeScatter`/`moeBlock3d`) — and on a
`(batch, seq_len, hidden_dim)` input returns an output of the same shape
together with the router logits of the flattened tokens. -/
theorem c1_moe_block_recipe_and_shape (ef af : ℚ → ℚ) (mp : MoeParams)
    (h : List Mat) (B S Hd : ℕ) (hwf : MoeWF Hd mp) (hB : h.length = B)
    (hS : ∀ m ∈ h, m.length = S) (hH : ∀ m ∈ h, ∀ v ∈ m, v.length = Hd) :
    (moeBlock3d ef af mp h).1.length = B ∧
      (∀ m ∈ (moeBlock3d ef af mp h).1, m.length = S) ∧
      (∀ m ∈ (moeBlock3d ef af mp h).1, ∀ v ∈ m, v.length = Hd) ∧
      (moeBlock3d ef af mp h).2 = h.flatten.map (matVec mp.gate) ∧
      (moeBlock3d ef af mp h).2.length = B * S ∧
      ∀ r ∈ (moeBlock3d ef af mp h).2, r.length = mp.gate.length := by
  have hflat : h.flatten.length = B * S := by
    rw [List.length_flatten]
    have : h.map List.length = List.replicate B S := by
      rw [← hB]
      rw [show h.length = (h.map List.length).length from (List.length_map _ _).symm]
      exact List.eq_replicate_of_mem (fun b hb => by
        obtain ⟨m, hm, rfl⟩ := List.mem_map.1 hb
        exact hS m hm)
    rw [this, List.sum_replicate, smul_eq_mul, mul_comm]
  have hS' : 0 < h.length → (h.getD 0 []).length = S := by
    intro hpos
    refine hS _ ?_
    rw [List.getD_eq_getElem _ _ hpos]
    exact List.getElem_mem _
  have hHcomp : h.flatten = [] ∨ ((h.getD 0 []).getD 0 []).length = Hd := by
    rcases List.eq_nil_or_concat h.flatten with hnil | hcons
    · exact Or.inl hnil
    · right
      have hne : h.flatten ≠ [] := by
        obtain ⟨l, a, hla⟩ := hcons
        rw [hla]
        simp
      have hBpos : 0 < h.length := by
        by_contra hc
        have h0 : h = [] := List.eq_nil_of_length_eq_zero (by omega)
        rw [h0] at hne
        simp at hne
      have hm0 : h.getD 0 [] ∈ h := by
        rw [List.getD_eq_getElem _ _ hBpos]
        exact List.getElem_mem _
      have hSpos : 0 < (h.getD 0 []).length := by
        by_contra hc
        have h0 : h.getD 0 [] = [] := List.eq_nil_of_length_eq_zero (by omega)
        have hS0 : S = 0 := by rw [← hS _ hm0, h0]; rfl
        have hfl0 : h.flatten.length = 0 := by rw [hflat, hS0, mul_zero]
        exact hne (List.eq_nil_of_length_eq_zero hfl0)
      have hv0 : (h.getD 0 []).getD 0 [] ∈ h.getD 0 [] := by
        rw [List.getD_eq_getElem _ _ hSpos]
        exact List.getElem_mem _
      exact hH _ hm0 _ hv0
  refine ⟨?_, ?_, ?_, rfl, ?_, ?_⟩
  · show (unflatten h.length (h.getD 0 []).length
      (moeScatter ef af mp ((h.getD 0 []).getD 0 []).length h.flatten)).length = B
    rw [unflatten_length, hB]
  · intro m hm
    have hm' : m ∈ unflatten h.length (h.getD 0 []).length
        (moeScatter ef af mp ((h.getD 0 []).getD 0 []).length h.flatten) := hm
    have hBpos : 0 < h.length := by
      rw [unflatten] at hm'
      obtain ⟨b, hb, rfl⟩ := List.mem_map.1 hm'
      have := List.mem_range.1 hb
      omega
    have hlen := unflatten_rows h.length ((h.getD 0 []).length) _
      (by rw [length_moeScatter, hflat, hB, hS' hBpos]) m hm'
    rw [hlen, hS' hBpos]
  · intro m hm v hv
    have hm' : m ∈ unflatten h.length (h.getD 0 []).length
        (moeScatter ef af mp ((h.getD 0 []).getD 0 []).length h.flatten) := hm
    rw [unflatten] at hm'
    obtain ⟨b, _, rfl⟩ := List.mem_map.1 hm'
    have hvmem : v ∈ moeScatter ef af mp (((h.getD 0 []).getD 0 []).length) h.flatten :=
      List.mem_of_mem_drop (List.mem_of_mem_take hv)
    rcases hHcomp with hnil | hHc
    · rw [hnil] at hvmem
      have hemp : moeScatter ef af mp (((h.getD 0 []).getD 0 []).length) [] = [] := by
        have := length_moeScatter ef af mp (((h.getD 0 []).getD 0 []).length) []
        exact List.eq_nil_of_length_eq_zero (by simpa using this)
      rw [hemp] at hvmem
      simp at hvmem
    · rw [hHc] at hvmem
      exact rows_moeScatter ef af mp Hd h.flatten hwf v hvmem
  · show (h.flatten.map (matVec mp.gate)).length = B * S
    rw [List.length_map, hflat]
  · intro r hr
    have hr' : r ∈ h.flatten.map (matVec mp.gate) := hr
    obtain ⟨x, _, rfl⟩ := List.mem_map.1 hr'
    exact length_matVec _ _

/-- Witness for C1 at a concrete two-expert block on a `(2, 2, 2)` input. -/
theorem c1_moe_block_recipe_and_shape_witness :
    (MoeWF 2 ⟨[[1, 0], [0, 1]], [⟨[[1, 1]], [[2], [3]], [[1, 0]]⟩, ⟨[[0, 1]], [[1], [1]], [[1, 1]]⟩], 1⟩ ∧
        ([[[1, 2], [3, 4]], [[5, 6], [7, 8]]] : List Mat).length = 2) ∧
      (moeBlock3d (fun x => x + 5) (fun x => x * 2)
          ⟨[[1, 0], [0, 1]], [⟨[[1, 1]], [[2], [3]], [[1, 0]]⟩, ⟨[[0, 1]], [[1], [1]], [[1, 1]]⟩], 1⟩
          [[[1, 2], [3, 4]], [[5, 6], [7, 8]]]).1.length = 2 := by
  have h := c1_moe_block_recipe_and_shape (fun x => x + 5) (fun x => x * 2)
    ⟨[[1, 0], [0, 1]], [⟨[[1, 1]], [[2], [3]], [[1, 0]]⟩, ⟨[[0, 1]], [[1], [1]], [[1, 1]]⟩], 1⟩
    [[[1, 2], [3, 4]], [[5, 6], [7, 8]]] 2 2 2
    (by refine ⟨by decide, by decide, by decide, ?_⟩; decide)
    (by decide) (by decide) (by decide)
  exact ⟨⟨⟨by decide, by decide, by decide, by decide⟩, by decide⟩, h.1⟩

/-- Claim C4: the block-sparse scatter/gather formulation of
`MixtralSparseMoeBlock.forward` is strictly equivalent to the naive dense
full-capacity MoE with no dropped tokens: the flattened output is, token by
token, the sum over all experts of (normalised routing weight if the expert
is among the token's top-k, else 0) times that expert's MLP output — each
token receives a contribution from each selected expert and from no other. -/
theorem c4_moe_scatter_dense_equiv (ef af : ℚ → ℚ) (mp : MoeParams) (H : ℕ)
    (xs : Mat) (hwf : MoeWF H mp) :
    moeScatter ef af mp H xs = xs.map (moeTokenDense ef af mp H) ∧
      ∀ t < xs.length,
        (moeScatter ef af mp H xs).getD t [] = moeTokenDense ef af mp H (xs.getD t []) :=
  ⟨moeScatter_eq_map ef af mp H xs hwf, fun t ht => moeScatter_getD ef af mp H xs hwf t ht⟩

/-- Witness for C4 on a concrete three-token batch. -/
theorem c4_moe_scatter_dense_equiv_witness :
    MoeWF 1 ⟨[[1], [2]], [⟨[[2]], [[1]], [[3]]⟩, ⟨[[1]], [[2]], [[1]]⟩], 2⟩ ∧
      moeScatter (fun x => x * x + 1) (fun x => x + 1)
          ⟨[[1], [2]], [⟨[[2]], [[1]], [[3]]⟩, ⟨[[1]], [[2]], [[1]]⟩], 2⟩ 1 [[1], [2], [3]] =
        [[1], [2], [3]].map (moeTokenDense (fun x => x * x + 1) (fun x => x + 1)
          ⟨[[1], [2]], [⟨[[2]], [[1]], [[3]]⟩, ⟨[[1]], [[2]], [[1]]⟩], 2⟩ 1) := by
  have hwf : MoeWF 1 ⟨[[1], [2]], [⟨[[2]], [[1]], [[3]]⟩, ⟨[[1]], [[2]], [[1]]⟩], 2⟩ := by
    refine ⟨by decide, by decide, by decide, ?_⟩
    decide
  exact ⟨hwf, (c4_moe_scatter_dense_equiv (fun x => x * x + 1) (fun x => x + 1)
    ⟨[[1], [2]], [⟨[[2]], [[1]], [[3]]⟩, ⟨[[1]], [[2]], [[1]]⟩], 2⟩ 1 [[1], [2], [3]] hwf).1⟩

/-! ## KV-cache consistency: the masked attention of a query only depends on
the cache prefix its causal mask allows -/

theorem length_kvSeq (p : AttnParams) : ∀ (pos : ℕ) (xs : List Vec),
    (kvSeq p pos xs).length = xs.length
  | _, [] => rfl
  | pos, _ :: xs => by
    rw [kvSeq, List.length_cons, List.length_cons, length_kvSeq p (pos + 1) xs]

theorem kvSeq_append (p : AttnParams) : ∀ (as bs : List Vec) (pos : ℕ),
    kvSeq p pos (as ++ bs) = kvSeq p pos as ++ kvSeq p (pos + as.length) bs
  | [], bs, pos => by simp [kvSeq]
  | a :: as, bs, pos => by
    rw [List.cons_append, kvSeq, kvSeq, kvSeq_append p as bs (pos + 1), List.cons_append,
      List.length_cons]
    have : pos + 1 + as.length = pos + (as.length + 1) := by omega
    rw [this]

theorem length_headSlice (d h : ℕ) (v : Vec) :
    (headSlice d h v).length = min d (v.length - h * d) := by
  rw [headSlice, List.length_take, List.length_drop]

/-- Every value head produced by `kvAt` has length `head_dim` when `v_proj`
has the configured output dimension. -/
theorem kvAt_val_len (p : AttnParams) (hv : p.vProj.length = p.numKVHeads * p.headDim)
    (pos : ℕ) (x : Vec) (i : ℕ) (hi : i < p.numKVHeads) :
    (((kvAt p pos x).2).getD i []).length = p.headDim := by
  rw [kvAt]
  rw [getD_map _ _ i (by rw [List.length_range]; exact hi) 0 []]
  rw [length_headSlice, length_matVec, hv]
  have hgd : (List.range p.numKVHeads).getD i 0 = i :=
    by rw [List.getD_eq_getElem _ _ (by rw [List.length_range]; exact hi)]; simp
  rw [hgd]
  have : i * p.headDim + p.headDim ≤ p.numKVHeads * p.headDim := by
    calc i * p.headDim + p.headDim = (i + 1) * p.headDim := by ring
    _ ≤ p.numKVHeads * p.headDim := Nat.mul_le_mul_right _ hi
  omega

/-- The causal flags over positions `≥ pos + 1` are all false. -/
theorem causal_flags_split (a b pos : ℕ) (hpos : pos < a) :
    (List.range (a + b)).map (fun j => decide (j ≤ pos)) =
      (List.range a).map (fun j => decide (j ≤ pos)) ++ List.replicate b false := by
  rw [List.range_add, List.map_append, List.map_map]
  congr 1
  rw [show (List.replicate b false) =
    List.replicate ((List.range b).map (fun x => decide (a + x ≤ pos))).length false by
      rw [List.length_map, List.length_range]]
  refine List.eq_replicate_of_mem (fun c hc => ?_)
  obtain ⟨j, _, rfl⟩ := List.mem_map.1 hc
  simp only [Function.comp, decide_eq_false_iff_not]
  omega

theorem zipWith_mask_false (ef : ℚ → ℚ) : ∀ (s : List ℚ),
    List.zipWith (fun sc f => if f then ef sc else 0) s (List.replicate s.length false) =
      List.replicate s.length (0 : ℚ)
  | [] => rfl
  | x :: s => by
    rw [List.length_cons, List.replicate_succ, List.zipWith_cons_cons, if_neg (by simp),
      List.replicate_succ, zipWith_mask_false ef s]

/-- Masked softmax ignores a fully masked tail: the weights of the visible
prefix are unchanged and the tail weights are zero. -/
theorem maskedWeights_append (ef : ℚ → ℚ) (sA sB : List ℚ) (fA : List Bool)
    (hlen : fA.length = sA.length) :
    maskedWeights ef (sA ++ sB) (fA ++ List.replicate sB.length false) =
      maskedWeights ef sA fA ++ List.replicate sB.length 0 := by
  rw [maskedWeights, maskedWeights]
  rw [List.zipWith_append _ _ _ _ _ hlen.symm, zipWith_mask_false]
  rw [List.sum_append, List.sum_replicate, smul_zero, add_zero, List.map_append]
  congr 1
  rw [List.map_replicate, zero_div]

theorem length_foldl_addVec_le : ∀ (L : List Vec) (acc : Vec),
    (L.foldl addVec acc).length ≤ acc.length
  | [], _ => le_refl _
  | v :: L, acc => by
    rw [List.foldl_cons]
    exact (length_foldl_addVec_le L _).trans (by rw [length_addVec]; omega)

theorem foldl_addVec_smul_zero (d : ℕ) : ∀ (vs : List Vec) (acc : Vec),
    (∀ v ∈ vs, v.length = d) → acc.length ≤ d →
      (vs.map (smul 0)).foldl addVec acc = acc
  | [], _, _, _ => rfl
  | v :: vs, acc, hvs, hacc => by
    rw [List.map_cons, List.foldl_cons, smul_zero_eq, hvs v (List.mem_cons_self _ _),
      addVec_zeros acc d hacc]
    exact foldl_addVec_smul_zero d vs acc (fun w hw => hvs w (List.mem_cons_of_mem _ hw)) hacc

theorem zipWith_smul_replicate_zero : ∀ (vs : List Vec),
    List.zipWith smul (List.replicate vs.length 0) vs = vs.map (smul 0)
  | [] => rfl
  | v :: vs => by
    rw [List.length_cons, List.replicate_succ, List.zipWith_cons_cons, List.map_cons,
      zipWith_smul_replicate_zero vs]

/-- A weighted sum over values whose weights vanish beyond a prefix equals
the weighted sum over the prefix. -/
theorem weightedSum_append_zero (d : ℕ) (w1 : List ℚ) (v1 v2 : List Vec)
    (h1 : w1.length = v1.length) (hv2 : ∀ v ∈ v2, v.length = d) :
    weightedSum d (w1 ++ List.replicate v2.length 0) (v1 ++ v2) = weightedSum d w1 v1 := by
  rw [weightedSum, weightedSum, List.zipWith_append _ _ _ _ _ h1,
    zipWith_smul_replicate_zero, List.foldl_append]
  exact foldl_addVec_smul_zero d v2 _ hv2
    ((length_foldl_addVec_le _ _).trans (by rw [length_zeros]))

theorem length_maskedWeights (ef : ℚ → ℚ) (s : List ℚ) (f : List Bool) :
    (maskedWeights ef s f).length = min s.length f.length := by
  rw [maskedWeights]
  simp [List.length_zipWith]

/-- One attention head over a cache split as `prefix ++ tail`, with the tail
fully masked, equals the head over the prefix alone. -/
theorem headAttend_prefix (ef : ℚ → ℚ) (d : ℕ) (sA sB : List ℚ) (vA vB : List Vec)
    (fA : List Bool) (hfa : fA.length = sA.length) (hsv : sA.length = vA.length)
    (hsv2 : sB.length = vB.length) (hvB : ∀ v ∈ vB, v.length = d) :
    weightedSum d (maskedWeights ef (sA ++ sB) (fA ++ List.replicate sB.length false))
        (vA ++ vB) =
      weightedSum d (maskedWeights ef sA fA) vA := by
  rw [maskedWeights_append ef sA sB fA hfa]
  rw [show List.replicate sB.length (0 : ℚ) = List.replicate vB.length 0 by rw [hsv2]]
  exact weightedSum_append_zero d _ vA vB
    (by rw [length_maskedWeights, hfa, min_self, hsv]) hvB

/-- The quotient head index used by `repeat_kv` is a valid key/value head. -/
theorem kvHead_lt (p : AttnParams) (h : ℕ) (hh : h < p.numHeads)
    (_hkv0 : 0 < p.numKVHeads)
    (hdiv : p.numKVHeads * (p.numHeads / p.numKVHeads) = p.numHeads) :
    h / (p.numHeads / p.numKVHeads) < p.numKVHeads := by
  have hrep : 0 < p.numHeads / p.numKVHeads := by
    rcases Nat.eq_zero_or_pos (p.numHeads / p.numKVHeads) with h0 | h0
    · rw [h0, mul_zero] at hdiv
      omega
    · exact h0
  rw [Nat.div_lt_iff_lt_mul hrep, hdiv]
  exact hh

/-- A query whose causal mask only reaches into `kvA` attends identically
over `kvA ++ ext` and over `kvA`. -/
theorem attnHeadVecs_causal_prefix (ef : ℚ → ℚ) (p : AttnParams) (H : ℕ)
    (hwf : AttnWF H p) (kvA ext : List KV)
    (hext : ∀ kv ∈ ext, ∀ i, i < p.numKVHeads → ((kv.2.getD i []).length = p.headDim))
    (pos : ℕ) (x : Vec) (hpos : pos < kvA.length) :
    attnHeadVecs ef p (kvA ++ ext)
        ((List.range (kvA.length + ext.length)).map (fun j => decide (j ≤ pos))) pos x =
      attnHeadVecs ef p kvA ((List.range kvA.length).map (fun j => decide (j ≤ pos))) pos x := by
  obtain ⟨ho, hv, hkv0, hnh0, hdiv⟩ := hwf
  rw [attnHeadVecs, attnHeadVecs]
  refine List.map_congr_left (fun h hh => ?_)
  have hkvh : h / (p.numHeads / p.numKVHeads) < p.numKVHeads :=
    kvHead_lt p h (List.mem_range.1 hh) hkv0 hdiv
  simp only [List.map_append, causal_flags_split kvA.length ext.length pos hpos]
  rw [show ext.length = (ext.map (fun kv : KV =>
      dot (applyRot (p.cosT pos) (p.sinT pos) (headSlice p.headDim h (matVec p.qProj x)))
        (kv.1.getD (h / (p.numHeads / p.numKVHeads)) []) / p.sqrtHd)).length from
    (List.length_map _ _).symm]
  refine headAttend_prefix ef p.headDim _ _ _ _ _ ?_ ?_ ?_ ?_
  · rw [List.length_map, List.length_map, List.length_range]
  · rw [List.length_map, List.length_map]
  · rw [List.length_map, List.length_map]
  · intro v hv2
    obtain ⟨kv, hkv, rfl⟩ := List.mem_map.1 hv2
    exact hext kv hkv _ hkvh

theorem length_attnAllHeads (ef : ℚ → ℚ) (p : AttnParams) (kvs : List KV) :
    ∀ (xs : List Vec) (pos : ℕ) (mask : List (List Bool)),
      (attnAllHeads ef p kvs pos mask xs).length = xs.length
  | [], _, _ => rfl
  | _ :: xs, pos, mask => by
    rw [attnAllHeads, List.length_cons, List.length_cons,
      length_attnAllHeads ef p kvs xs (pos + 1) mask.tail]

theorem attnAllHeads_append (ef : ℚ → ℚ) (p : AttnParams) (kvs : List KV) :
    ∀ (as bs : List Vec) (pos : ℕ) (mask : List (List Bool)),
      attnAllHeads ef p kvs pos mask (as ++ bs) =
        attnAllHeads ef p kvs pos mask as ++
          attnAllHeads ef p kvs (pos + as.length) (mask.drop as.length) bs
  | [], bs, pos, mask => by simp [attnAllHeads]
  | a :: as, bs, pos, mask => by
    rw [List.cons_append, attnAllHeads, attnAllHeads,
      attnAllHeads_append ef p kvs as bs (pos + 1) mask.tail, List.cons_append,
      List.length_cons]
    have h1 : pos + 1 + as.length = pos + (as.length + 1) := by omega
    have h2 : mask.tail.drop as.length = mask.drop (as.length + 1) := by
      have ht : mask.tail = mask.drop 1 := by
        rw [← List.tail_drop mask 0, List.drop_zero]
      rw [ht, List.drop_drop]
      congr 1
      omega
    rw [h1, h2]

theorem attnAllHeads_mask_take (ef : ℚ → ℚ) (p : AttnParams) (kvs : List KV) :
    ∀ (xs : List Vec) (pos : ℕ) (mask : List (List Bool)) (n : ℕ), xs.length ≤ n →
      attnAllHeads ef p kvs pos (mask.take n) xs = attnAllHeads ef p kvs pos mask xs
  | [], _, _, _, _ => rfl
  | x :: xs, pos, mask, n, hn => by
    cases n with
    | zero => simp at hn
    | succ m =>
      cases mask with
      | nil =>
        rw [List.take_nil]
      | cons r rs =>
        rw [List.take_succ_cons, attnAllHeads, attnAllHeads]
        have hg : (r :: rs.take m).getD 0 [] = (r :: rs).getD 0 [] := rfl
        rw [hg]
        have htl : (r :: rs.take m).tail = rs.take m := rfl
        have htl2 : (r :: rs).tail = rs := rfl
        rw [htl, htl2, attnAllHeads_mask_take ef p kvs xs (pos + 1) rs m (by simpa using hn)]

theorem causalRows_cast (q m : ℕ) (f g : ℕ → ℕ) (hfg : ∀ i, f i = g i) :
    (List.range q).map (fun i => (List.range m).map (fun j => decide (j ≤ f i))) =
      (List.range q).map (fun i => (List.range m).map (fun j => decide (j ≤ g i))) := by
  refine List.map_congr_left (fun i _ => ?_)
  rw [hfg i]

/-- A run of queries whose causal masks stay inside `kvA` attends
identically over `kvA ++ ext` and over `kvA`. -/
theorem attnAllHeads_causal_prefix_run (ef : ℚ → ℚ) (p : AttnParams) (H : ℕ)
    (hwf : AttnWF H p) (kvA ext : List KV)
    (hext : ∀ kv ∈ ext, ∀ i, i < p.numKVHeads → ((kv.2.getD i []).length = p.headDim)) :
    ∀ (xs : List Vec) (pos : ℕ), pos + xs.length ≤ kvA.length →
      attnAllHeads ef p (kvA ++ ext) pos
          ((List.range xs.length).map (fun i =>
            (List.range (kvA.length + ext.length)).map (fun j => decide (j ≤ pos + i)))) xs =
        attnAllHeads ef p kvA pos
          ((List.range xs.length).map (fun i =>
            (List.range kvA.length).map (fun j => decide (j ≤ pos + i)))) xs
  | [], _, _ => rfl
  | x :: xs, pos, hb => by
    rw [List.length_cons, List.range_succ_eq_map, List.map_cons, List.map_cons,
      attnAllHeads, attnAllHeads]
    have hg1 : ∀ (r : List Bool) (rs : List (List Bool)), (r :: rs).getD 0 [] = r := fun _ _ => rfl
    have htl : ∀ (r : List Bool) (rs : List (List Bool)), (r :: rs).tail = rs := fun _ _ => rfl
    rw [hg1, hg1, htl, htl]
    congr 1
    · rw [show pos + 0 = pos from rfl]
      exact attnHeadVecs_causal_prefix ef p H hwf kvA ext hext pos x
        (by simp only [List.length_cons] at hb; omega)
    · rw [List.map_map, List.map_map]
      have hc1 : ((fun i => (List.range (kvA.length + ext.length)).map
            (fun j => decide (j ≤ pos + i))) ∘ Nat.succ) =
          (fun i => (List.range (kvA.length + ext.length)).map
            (fun j => decide (j ≤ (pos + 1) + i))) := by
        funext i
        simp only [Function.comp]
        exact congrArg (fun h => List.map h (List.range (kvA.length + ext.length)))
          (funext (fun j => congrArg (fun n => decide (j ≤ n)) (by omega)))
      have hc2 : ((fun i => (List.range kvA.length).map
            (fun j => decide (j ≤ pos + i))) ∘ Nat.succ) =
          (fun i => (List.range kvA.length).map
            (fun j => decide (j ≤ (pos + 1) + i))) := by
        funext i
        simp only [Function.comp]
        exact congrArg (fun h => List.map h (List.range kvA.length))
          (funext (fun j => congrArg (fun n => decide (j ≤ n)) (by omega)))
      rw [hc1, hc2]
      exact attnAllHeads_causal_prefix_run ef p H hwf kvA ext hext xs (pos + 1)
        (by simp only [List.length_cons] at hb; omega)

theorem kvSeq_val_len (p : AttnParams)
    (hv : p.vProj.length = p.numKVHeads * p.headDim) :
    ∀ (xs : List Vec) (pos : ℕ) (kv : KV), kv ∈ kvSeq p pos xs →
      ∀ i, i < p.numKVHeads → ((kv.2.getD i []).length = p.headDim)
  | [], _, _, hkv => by simp [kvSeq] at hkv
  | x :: xs, pos, kv, hkv => by
    rw [kvSeq] at hkv
    rcases List.mem_cons.1 hkv with h | h
    · intro i hi
      rw [h]
      exact kvAt_val_len p hv pos x i hi
    · exact kvSeq_val_len p hv xs (pos + 1) kv h

theorem prepare_take (a b : ℕ) :
    (prepare4dCausalMask 0 (a + b)).take a =
      (List.range a).map (fun i => (List.range (a + b)).map (fun j => decide (j ≤ i))) := by
  rw [prepare4dCausalMask, ← List.map_take, List.take_range]
  simp only [Nat.zero_add]
  rw [min_eq_left (by omega : a ≤ a + b)]

theorem prepare_drop (a b : ℕ) :
    (prepare4dCausalMask 0 (a + b)).drop a = prepare4dCausalMask a b := by
  rw [prepare4dCausalMask, prepare4dCausalMask, ← List.map_drop]
  simp only [Nat.zero_add]
  rw [List.range_add, List.drop_left' (List.length_range a), List.map_map]
  rfl

/-- `MixtralAttention.forward` is causally decomposable: attending the
concatenation `as ++ bs` from an empty cache equals attending `as` first and
then attending `bs` against the cache produced by `as`, with the masks the
model builds for each call. -/
theorem attention_causal_decomp (ef : ℚ → ℚ) (p : AttnParams) (H : ℕ)
    (hwf : AttnWF H p) (as bs : List Vec) :
    attention ef p [] (prepare4dCausalMask 0 (as.length + bs.length)) (as ++ bs) =
      ((attention ef p [] (prepare4dCausalMask 0 as.length) as).1 ++
        (attention ef p (kvSeq p 0 as) (prepare4dCausalMask as.length bs.length) bs).1,
       kvSeq p 0 (as ++ bs)) := by
  have hext : ∀ kv ∈ kvSeq p as.length bs, ∀ i, i < p.numKVHeads →
      ((kv.2.getD i []).length = p.headDim) :=
    fun kv hkv => kvSeq_val_len p hwf.2.1 bs as.length kv hkv
  refine Prod.ext ?_ ?_
  · show (attnAllHeads ef p ([] ++ kvSeq p (List.length ([] : List KV)) (as ++ bs)) 0
        (prepare4dCausalMask 0 (as.length + bs.length)) (as ++ bs)).map
          (fun hs => matVec p.oProj hs.flatten) = _
    rw [List.nil_append]
    show (attnAllHeads ef p (kvSeq p 0 (as ++ bs)) 0
        (prepare4dCausalMask 0 (as.length + bs.length)) (as ++ bs)).map
          (fun hs => matVec p.oProj hs.flatten) = _
    rw [kvSeq_append p as bs 0]
    simp only [Nat.zero_add]
    rw [attnAllHeads_append ef p _ as bs 0 _, List.map_append]
    congr 1
    · rw [← attnAllHeads_mask_take ef p _ as 0 (prepare4dCausalMask 0 (as.length + bs.length))
        as.length le_rfl, prepare_take]
      have hrun := attnAllHeads_causal_prefix_run ef p H hwf (kvSeq p 0 as)
        (kvSeq p as.length bs) hext as 0
        (by rw [length_kvSeq]; omega)
      simp only [Nat.zero_add, length_kvSeq] at hrun
      rw [hrun]
      show _ = (attnAllHeads ef p ([] ++ kvSeq p (List.length ([] : List KV)) as) 0
        (prepare4dCausalMask 0 as.length) as).map (fun hs => matVec p.oProj hs.flatten)
      rw [List.nil_append]
      show _ = (attnAllHeads ef p (kvSeq p 0 as) 0
        (prepare4dCausalMask 0 as.length) as).map (fun hs => matVec p.oProj hs.flatten)
      rw [prepare4dCausalMask]
      simp only [Nat.zero_add]
    · rw [prepare_drop]
      simp only [Nat.zero_add]
      show _ = (attnAllHeads ef p (kvSeq p 0 as ++ kvSeq p (kvSeq p 0 as).length bs)
        (kvSeq p 0 as).length (prepare4dCausalMask as.length bs.length) bs).map
          (fun hs => matVec p.oProj hs.flatten)
      rw [length_kvSeq]
  · show ([] ++ kvSeq p (List.length ([] : List KV)) (as ++ bs)) = kvSeq p 0 (as ++ bs)
    rw [List.nil_append]
    rfl

theorem length_attention_out (ef : ℚ → ℚ) (p : AttnParams) (past : List KV)
    (mask : List (List Bool)) (xs : List Vec) :
    (attention ef p past mask xs).1.length = xs.length := by
  show ((attnAllHeads ef p _ _ mask xs).map _).length = xs.length
  rw [List.length_map, length_attnAllHeads]

theorem rows_attention_out (ef : ℚ → ℚ) (p : AttnParams) (H : ℕ)
    (ho : p.oProj.length = H) (past : List KV) (mask : List (List Bool))
    (xs : List Vec) : ∀ v ∈ (attention ef p past mask xs).1, v.length = H := by
  intro v hv
  have hv' : v ∈ (attnAllHeads ef p (past ++ kvSeq p past.length xs) past.length mask xs).map
      (fun hs => matVec p.oProj hs.flatten) := hv
  obtain ⟨hs, _, rfl⟩ := List.mem_map.1 hv'
  rw [length_matVec, ho]

theorem attention_snd (ef : ℚ → ℚ) (p : AttnParams) (past : List KV)
    (mask : List (List Bool)) (xs : List Vec) :
    (attention ef p past mask xs).2 = past ++ kvSeq p past.length xs := rfl

theorem length_rmsnorm (rf : ℚ → ℚ) (w : Vec) (eps : ℚ) (x : Vec) :
    (rmsnorm rf w eps x).length = min w.length x.length := by
  rw [rmsnorm]
  simp [List.length_zipWith]

theorem rows_zipWith_addVec (l1 l2 : Mat) (H : ℕ) (h1 : ∀ v ∈ l1, v.length = H)
    (h2 : ∀ v ∈ l2, v.length = H) : ∀ v ∈ List.zipWith addVec l1 l2, v.length = H := by
  intro v hv
  rw [List.mem_iff_getElem] at hv
  obtain ⟨i, hi, rfl⟩ := hv
  rw [List.getElem_zipWith, length_addVec, h1 _ (List.getElem_mem _),
    h2 _ (List.getElem_mem _), min_self]

theorem rows_map_rmsnorm (rf : ℚ → ℚ) (w : Vec) (eps : ℚ) (l : Mat) (H : ℕ)
    (hw : w.length = H) (hl : ∀ v ∈ l, v.length = H) :
    ∀ v ∈ l.map (rmsnorm rf w eps), v.length = H := by
  intro v hv
  obtain ⟨x, hx, rfl⟩ := List.mem_map.1 hv
  rw [length_rmsnorm, hw, hl x hx, min_self]

theorem moeScatter_nil (ef af : ℚ → ℚ) (mp : MoeParams) (Hx : ℕ) :
    moeScatter ef af mp Hx [] = [] :=
  List.eq_nil_of_length_eq_zero (by rw [length_moeScatter]; rfl)

/-- The `hidden_dim` the block reads off the input shape agrees with the
well-formed hidden size, so the scatter loop computes the dense per-token
mixture at that size. -/
theorem moeScatter_shape_eq_map (ef af : ℚ → ℚ) (mp : MoeParams) (H : ℕ)
    (hwf : MoeWF H mp) (l : Mat) (hl : ∀ v ∈ l, v.length = H) :
    moeScatter ef af mp ((l.getD 0 []).length) l = l.map (moeTokenDense ef af mp H) := by
  cases l with
  | nil => rw [moeScatter_nil, List.map_nil]
  | cons v l' =>
    have hv : ((v :: l').getD 0 []).length = H := hl v (List.mem_cons_self _ _)
    rw [hv, moeScatter_eq_map ef af mp H (v :: l') hwf]

theorem length_decoderLayer_out (pr : Prims) (lp : LayerParams) (past : List KV)
    (mask : List (List Bool)) (xs : List Vec) :
    (decoderLayer pr lp past mask xs).1.length = xs.length := by
  show (List.zipWith addVec _ _).length = xs.length
  rw [List.length_zipWith, length_moeScatter, List.length_map, List.length_zipWith,
    length_attention_out, List.length_map]
  omega

theorem rows_decoderLayer_out (pr : Prims) (lp : LayerParams) (H : ℕ)
    (hwf : LayerWF H lp) (past : List KV) (mask : List (List Bool)) (xs : List Vec)
    (hxs : ∀ v ∈ xs, v.length = H) :
    ∀ v ∈ (decoderLayer pr lp past mask xs).1, v.length = H := by
  obtain ⟨hattn, hmoe, hin, hpost⟩ := hwf
  have h2rows : ∀ v ∈ List.zipWith addVec xs
      (attention pr.expF lp.attn past mask (xs.map (rmsnorm pr.rsqrtF lp.inputLayernorm pr.eps))).1,
      v.length = H :=
    rows_zipWith_addVec _ _ H hxs (rows_attention_out _ _ H hattn.1 _ _ _)
  have h3rows := rows_map_rmsnorm pr.rsqrtF lp.postAttentionLayernorm pr.eps _ H hpost h2rows
  show ∀ v ∈ List.zipWith addVec _ (moeScatter _ _ _ _ _), v.length = H
  rw [moeScatter_shape_eq_map pr.expF pr.actF lp.moe H hmoe _ h3rows]
  refine rows_zipWith_addVec _ _ H h2rows ?_
  intro v hv
  obtain ⟨x, _, rfl⟩ := List.mem_map.1 hv
  exact length_moeTokenDense _ _ _ H x hmoe

theorem decoderLayer_snd (pr : Prims) (lp : LayerParams) (past : List KV)
    (mask : List (List Bool)) (xs : List Vec) :
    (decoderLayer pr lp past mask xs).2 =
      past ++ kvSeq lp.attn past.length (xs.map (rmsnorm pr.rsqrtF lp.inputLayernorm pr.eps)) := rfl

/-- `MixtralDecoderLayer.forward` is causally decomposable: running the
layer on `as ++ bs` from an empty cache equals running it on `as`, then on
`bs` with the cache produced by `as`, with the masks the model builds for
each call. -/
theorem decoderLayer_causal_decomp (pr : Prims) (lp : LayerParams) (H : ℕ)
    (hwf : LayerWF H lp) (as bs : List Vec) (ha : ∀ v ∈ as, v.length = H)
    (hb : ∀ v ∈ bs, v.length = H) :
    decoderLayer pr lp [] (prepare4dCausalMask 0 (as.length + bs.length)) (as ++ bs) =
      ((decoderLayer pr lp [] (prepare4dCausalMask 0 as.length) as).1 ++
        (decoderLayer pr lp (decoderLayer pr lp [] (prepare4dCausalMask 0 as.length) as).2
          (prepare4dCausalMask as.length bs.length) bs).1,
       (decoderLayer pr lp (decoderLayer pr lp [] (prepare4dCausalMask 0 as.length) as).2
          (prepare4dCausalMask as.length bs.length) bs).2) := by
  obtain ⟨hattn, hmoe, hin, hpost⟩ := hwf
  have hA := attention_causal_decomp pr.expF lp.attn H hattn
    (as.map (rmsnorm pr.rsqrtF lp.inputLayernorm pr.eps))
    (bs.map (rmsnorm pr.rsqrtF lp.inputLayernorm pr.eps))
  simp only [List.length_map] at hA
  have ho1len : (attention pr.expF lp.attn [] (prepare4dCausalMask 0 as.length)
      (as.map (rmsnorm pr.rsqrtF lp.inputLayernorm pr.eps))).1.length = as.length := by
    rw [length_attention_out, List.length_map]
  have ho2len : (attention pr.expF lp.attn
      (kvSeq lp.attn 0 (as.map (rmsnorm pr.rsqrtF lp.inputLayernorm pr.eps)))
      (prepare4dCausalMask as.length bs.length)
      (bs.map (rmsnorm pr.rsqrtF lp.inputLayernorm pr.eps))).1.length = bs.length := by
    rw [length_attention_out, List.length_map]
  have hrows_h2a : ∀ v ∈ List.zipWith addVec as
      (attention pr.expF lp.attn [] (prepare4dCausalMask 0 as.length)
        (as.map (rmsnorm pr.rsqrtF lp.inputLayernorm pr.eps))).1, v.length = H :=
    rows_zipWith_addVec _ _ H ha (rows_attention_out _ _ H hattn.1 _ _ _)
  have hrows_h2b : ∀ v ∈ List.zipWith addVec bs
      (attention pr.expF lp.attn
        (kvSeq lp.attn 0 (as.map (rmsnorm pr.rsqrtF lp.inputLayernorm pr.eps)))
        (prepare4dCausalMask as.length bs.length)
        (bs.map (rmsnorm pr.rsqrtF lp.inputLayernorm pr.eps))).1, v.length = H :=
    rows_zipWith_addVec _ _ H hb (rows_attention_out _ _ H hattn.1 _ _ _)
  have hrows_h3a := rows_map_rmsnorm pr.rsqrtF lp.postAttentionLayernorm pr.eps _ H hpost hrows_h2a
  have hrows_h3b := rows_map_rmsnorm pr.rsqrtF lp.postAttentionLayernorm pr.eps _ H hpost hrows_h2b
  simp only [decoderLayer]
  rw [List.map_append, hA]
  simp only
  rw [attention_snd, List.nil_append, List.length_nil]
  rw [List.zipWith_append _ _ _ _ _ ho1len.symm]
  rw [List.map_append]
  rw [moeScatter_shape_eq_map pr.expF pr.actF lp.moe H hmoe _
    (fun v hv => by
      rcases List.mem_append.1 hv with h | h
      · exact hrows_h3a v h
      · exact hrows_h3b v h)]
  rw [moeScatter_shape_eq_map pr.expF pr.actF lp.moe H hmoe _ hrows_h3a]
  rw [moeScatter_shape_eq_map pr.expF pr.actF lp.moe H hmoe _ hrows_h3b]
  rw [List.map_append]
  rw [List.zipWith_append _ _ _ _ _ (by simp [List.length_zipWith, ho1len])]
  rw [attention_snd, length_kvSeq, kvSeq_append lp.attn _ _ 0]
  simp only [Nat.zero_add, List.length_map]

theorem length_runLayers_out (pr : Prims) : ∀ (ls : List LayerParams)
    (pasts : List (List KV)) (mask : List (List Bool)) (xs : List Vec),
    (runLayers pr ls pasts mask xs).1.length = xs.length
  | [], _, _, _ => rfl
  | lp :: ls, pasts, mask, xs => by
    show (runLayers pr ls pasts.tail mask (decoderLayer pr lp (pasts.getD 0 []) mask xs).1).1.length = _
    rw [length_runLayers_out pr ls _ mask _, length_decoderLayer_out]

theorem rows_runLayers_out (pr : Prims) (H : ℕ) : ∀ (ls : List LayerParams),
    (∀ lp ∈ ls, LayerWF H lp) → ∀ (pasts : List (List KV)) (mask : List (List Bool))
      (xs : List Vec), (∀ v ∈ xs, v.length = H) →
      ∀ v ∈ (runLayers pr ls pasts mask xs).1, v.length = H
  | [], _, _, _, _, hxs => hxs
  | lp :: ls, hwf, pasts, mask, xs, hxs => by
    show ∀ v ∈ (runLayers pr ls pasts.tail mask (decoderLayer pr lp (pasts.getD 0 []) mask xs).1).1, _
    exact rows_runLayers_out pr H ls (fun l hl => hwf l (List.mem_cons_of_mem _ hl)) _ mask _
      (rows_decoderLayer_out pr lp H (hwf lp (List.mem_cons_self _ _)) _ mask xs hxs)

theorem caches_runLayers (pr : Prims) : ∀ (ls : List LayerParams)
    (mask : List (List Bool)) (xs : List Vec),
    ∀ c ∈ (runLayers pr ls [] mask xs).2, c.length = xs.length
  | [], _, _ => by
    intro c hc
    simp [runLayers] at hc
  | lp :: ls, mask, xs => by
    intro c hc
    have hc' : c ∈ (decoderLayer pr lp (([] : List (List KV)).getD 0 []) mask xs).2 ::
        (runLayers pr ls ([] : List (List KV)).tail mask
          (decoderLayer pr lp (([] : List (List KV)).getD 0 []) mask xs).1).2 := hc
    rcases List.mem_cons.1 hc' with h | h
    · rw [h, decoderLayer_snd]
      show (kvSeq lp.attn (List.length ([] : List KV)) _).length = xs.length
      rw [length_kvSeq, List.length_map]
    · have := caches_runLayers pr ls mask
        (decoderLayer pr lp (([] : List (List KV)).getD 0 []) mask xs).1 c h
      rw [this, length_decoderLayer_out]

/-- The decoder-layer loop of `MixtralModel.forward` is causally
decomposable: running all layers on `as ++ bs` from empty caches equals
running them on `as`, then on `bs` with the caches produced by `as`. -/
theorem runLayers_causal_decomp (pr : Prims) (H : ℕ) : ∀ (ls : List LayerParams),
    (∀ lp ∈ ls, LayerWF H lp) → ∀ (as bs : List Vec), (∀ v ∈ as, v.length = H) →
      (∀ v ∈ bs, v.length = H) →
      runLayers pr ls [] (prepare4dCausalMask 0 (as.length + bs.length)) (as ++ bs) =
        ((runLayers pr ls [] (prepare4dCausalMask 0 as.length) as).1 ++
          (runLayers pr ls (runLayers pr ls [] (prepare4dCausalMask 0 as.length) as).2
            (prepare4dCausalMask as.length bs.length) bs).1,
         (runLayers pr ls (runLayers pr ls [] (prepare4dCausalMask 0 as.length) as).2
            (prepare4dCausalMask as.length bs.length) bs).2)
  | [], _, as, bs, _, _ => rfl
  | lp :: ls, hwf, as, bs, ha, hb => by
    have hlp := hwf lp (List.mem_cons_self _ _)
    have hls := fun l hl => hwf l (List.mem_cons_of_mem lp hl)
    have hd := decoderLayer_causal_decomp pr lp H hlp as bs ha hb
    have hrowsA := rows_decoderLayer_out pr lp H hlp [] (prepare4dCausalMask 0 as.length) as ha
    have hrowsB := rows_decoderLayer_out pr lp H hlp
      (decoderLayer pr lp [] (prepare4dCausalMask 0 as.length) as).2
      (prepare4dCausalMask as.length bs.length) bs hb
    have hIH := runLayers_causal_decomp pr H ls hls
      (decoderLayer pr lp [] (prepare4dCausalMask 0 as.length) as).1
      (decoderLayer pr lp (decoderLayer pr lp [] (prepare4dCausalMask 0 as.length) as).2
        (prepare4dCausalMask as.length bs.length) bs).1 hrowsA hrowsB
    simp only [length_decoderLayer_out] at hIH
    show ((runLayers pr ls [] (prepare4dCausalMask 0 (as.length + bs.length))
        (decoderLayer pr lp [] (prepare4dCausalMask 0 (as.length + bs.length)) (as ++ bs)).1).1,
      (decoderLayer pr lp [] (prepare4dCausalMask 0 (as.length + bs.length)) (as ++ bs)).2 ::
        (runLayers pr ls [] (prepare4dCausalMask 0 (as.length + bs.length))
          (decoderLayer pr lp [] (prepare4dCausalMask 0 (as.length + bs.length)) (as ++ bs)).1).2) = _
    rw [hd]
    dsimp only
    rw [hIH]
    rfl

theorem length_runLayers_snd (pr : Prims) : ∀ (ls : List LayerParams)
    (pasts : List (List KV)) (mask : List (List Bool)) (xs : List Vec),
    (runLayers pr ls pasts mask xs).2.length = ls.length
  | [], _, _, _ => rfl
  | lp :: ls, pasts, mask, xs => by
    show ((decoderLayer pr lp (pasts.getD 0 []) mask xs).2 ::
      (runLayers pr ls pasts.tail mask (decoderLayer pr lp (pasts.getD 0 []) mask xs).1).2).length = _
    rw [List.length_cons, List.length_cons, length_runLayers_snd pr ls]

theorem drop_min_length {α : Type} (l : List α) (n : ℕ) :
    l.drop (min n l.length) = l.drop n := by
  rcases le_or_lt n l.length with h | h
  · rw [min_eq_left h]
  · rw [min_eq_right h.le, List.drop_length, List.drop_eq_nil_of_le h.le]

theorem take_min_length {α : Type} (l : List α) (n : ℕ) :
    l.take (min n l.length) = l.take n := by
  rcases le_or_lt n l.length with h | h
  · rw [min_eq_left h]
  · rw [min_eq_right h.le, List.take_length, List.take_of_length_le h.le]

theorem modelForward_def (pr : Prims) (p : ModelParams) (pasts : List (List KV))
    (toks : List ℕ) :
    modelForward pr p pasts toks =
      ((runLayers pr p.layers pasts
          (prepare4dCausalMask ((pasts.getD 0 []).length) toks.length)
          (toks.map (fun t => p.embed.getD t []))).1.map (rmsnorm pr.rsqrtF p.normW pr.eps),
       (runLayers pr p.layers pasts
          (prepare4dCausalMask ((pasts.getD 0 []).length) toks.length)
          (toks.map (fun t => p.embed.getD t []))).2) := rfl

/-- Claim C2 (over exact arithmetic): incremental decoding with the KV cache
matches the full forward pass.  For every prompt and split point `n`, a
forward pass over the first `n` tokens with caching followed by a forward
pass over the remaining tokens against the returned `past_key_values`
produces, on the new positions, exactly the last hidden state of a single
full forward pass; the first pass likewise reproduces the first `n`
positions.  The cached key/value projections enter the second pass only
through the returned caches, i.e. they are reused, not recomputed. -/
theorem c2_kv_cache_consistency (pr : Prims) (p : ModelParams) (H : ℕ)
    (toks : List ℕ) (n : ℕ) (hwf : ModelWF H p)
    (hids : ∀ t ∈ toks, t < p.embed.length) :
    (modelForward pr p (modelForward pr p [] (toks.take n)).2 (toks.drop n)).1 =
        (modelForward pr p [] toks).1.drop n ∧
      (modelForward pr p [] (toks.take n)).1 = (modelForward pr p [] toks).1.take n := by
  obtain ⟨hembW, hlayers, hnorm⟩ := hwf
  have hembA : ∀ v ∈ (toks.take n).map (fun t => p.embed.getD t []), v.length = H := by
    intro v hv
    obtain ⟨t, ht, rfl⟩ := List.mem_map.1 hv
    have hlt := hids t (List.mem_of_mem_take ht)
    rw [List.getD_eq_getElem _ _ hlt]
    exact hembW _ (List.getElem_mem _)
  have hembB : ∀ v ∈ (toks.drop n).map (fun t => p.embed.getD t []), v.length = H := by
    intro v hv
    obtain ⟨t, ht, rfl⟩ := List.mem_map.1 hv
    have hlt := hids t (List.mem_of_mem_drop ht)
    rw [List.getD_eq_getElem _ _ hlt]
    exact hembW _ (List.getElem_mem _)
  have hsplit : toks.map (fun t => p.embed.getD t []) =
      (toks.take n).map (fun t => p.embed.getD t []) ++
        (toks.drop n).map (fun t => p.embed.getD t []) := by
    rw [← List.map_append, List.take_append_drop]
  have hlen_td : (toks.take n).length + (toks.drop n).length = toks.length := by
    rw [List.length_take, List.length_drop]
    omega
  have hmask0 : ∀ (q : ℕ),
      prepare4dCausalMask ((([] : List (List KV)).getD 0 []).length) q =
        prepare4dCausalMask 0 q := fun _ => rfl
  cases hls : p.layers with
  | nil =>
    simp only [modelForward_def, hls]
    show ((runLayers pr [] _ _ _).1.map (rmsnorm pr.rsqrtF p.normW pr.eps)) = _ ∧
      ((runLayers pr [] _ _ _).1.map (rmsnorm pr.rsqrtF p.normW pr.eps)) = _
    show (((toks.drop n).map (fun t => p.embed.getD t [])).map (rmsnorm pr.rsqrtF p.normW pr.eps)) =
        (((toks.map (fun t => p.embed.getD t [])).map (rmsnorm pr.rsqrtF p.normW pr.eps))).drop n ∧
      (((toks.take n).map (fun t => p.embed.getD t [])).map (rmsnorm pr.rsqrtF p.normW pr.eps)) =
        (((toks.map (fun t => p.embed.getD t [])).map (rmsnorm pr.rsqrtF p.normW pr.eps))).take n
    constructor
    · rw [← List.map_drop, ← List.map_drop]
    · rw [← List.map_take, ← List.map_take]
  | cons lp ls =>
    have hdec := runLayers_causal_decomp pr H p.layers hlayers
      ((toks.take n).map (fun t => p.embed.getD t []))
      ((toks.drop n).map (fun t => p.embed.getD t [])) hembA hembB
    simp only [List.length_map] at hdec
    have hpast2 : (((runLayers pr p.layers []
        (prepare4dCausalMask 0 (toks.take n).length)
        ((toks.take n).map (fun t => p.embed.getD t []))).2).getD 0 []).length =
        (toks.take n).length := by
      have hlen := length_runLayers_snd pr p.layers []
        (prepare4dCausalMask 0 (toks.take n).length)
        ((toks.take n).map (fun t => p.embed.getD t []))
      have hpos : 0 < (runLayers pr p.layers []
          (prepare4dCausalMask 0 (toks.take n).length)
          ((toks.take n).map (fun t => p.embed.getD t []))).2.length := by
        rw [hlen, hls]
        simp
      rw [List.getD_eq_getElem _ _ hpos]
      rw [caches_runLayers pr p.layers _ _ _ (List.getElem_mem _), List.length_map]
    simp only [modelForward_def]
    simp only [hmask0]
    rw [hpast2]
    rw [show toks.length = (toks.take n).length + (toks.drop n).length from hlen_td.symm]
    rw [hsplit, hdec]
    dsimp only
    rw [List.map_append]
    have h1 : ((runLayers pr p.layers [] (prepare4dCausalMask 0 (toks.take n).length)
        ((toks.take n).map (fun t => p.embed.getD t []))).1.map
          (rmsnorm pr.rsqrtF p.normW pr.eps)).length = min n toks.length := by
      rw [List.length_map, length_runLayers_out, List.length_map, List.length_take]
    have h2 : ((runLayers pr p.layers
        ((runLayers pr p.layers [] (prepare4dCausalMask 0 (toks.take n).length)
          ((toks.take n).map (fun t => p.embed.getD t []))).2)
        (prepare4dCausalMask (toks.take n).length (toks.drop n).length)
        ((toks.drop n).map (fun t => p.embed.getD t []))).1.map
          (rmsnorm pr.rsqrtF p.normW pr.eps)).length = toks.length - n := by
      rw [List.length_map, length_runLayers_out, List.length_map, List.length_drop]
    constructor
    · rw [← drop_min_length (_ ++ _) n, List.length_append, h1, h2,
        show min n (min n toks.length + (toks.length - n)) = min n toks.length from by omega,
        ← h1, List.drop_left]
    · rw [← take_min_length (_ ++ _) n, List.length_append, h1, h2,
        show min n (min n toks.length + (toks.length - n)) = min n toks.length from by omega,
        ← h1, List.take_left]

/-- Witness for C2: a two-token prompt split after the first token on the
example model. -/
theorem c2_kv_cache_consistency_witness :
    (ModelWF 2 exampleModel ∧ ∀ t ∈ [0, 1], t < exampleModel.embed.length) ∧
      ((modelForward examplePrims exampleModel
          (modelForward examplePrims exampleModel [] ([0, 1].take 1)).2 ([0, 1].drop 1)).1 =
          (modelForward examplePrims exampleModel [] [0, 1]).1.drop 1 ∧
        (modelForward examplePrims exampleModel [] ([0, 1].take 1)).1 =
          (modelForward examplePrims exampleModel [] [0, 1]).1.take 1) := by
  have hwfEx : ModelWF 2 exampleModel := by
    refine ⟨by decide, ?_, by decide⟩
    intro lp hlp
    have hl : lp = exampleLayer := by simpa [exampleModel] using hlp
    rw [hl]
    exact ⟨⟨by decide, by decide, by decide, by decide, by decide⟩,
      ⟨by decide, by decide, by decide, by decide⟩, by decide, by decide⟩
  exact ⟨⟨hwfEx, by decide⟩,
    c2_kv_cache_consistency examplePrims exampleModel 2 [0, 1] 1 hwfEx (by decide)⟩

/-! ## The forward pass follows the spec architecture -/

theorem moeScatter_shape_eq_map_shape (ef af : ℚ → ℚ) (mp : MoeParams) (H : ℕ)
    (hwf : MoeWF H mp) (l : Mat) (hl : ∀ v ∈ l, v.length = H) :
    moeScatter ef af mp ((l.getD 0 []).length) l =
      l.map (moeTokenDense ef af mp ((l.getD 0 []).length)) := by
  cases l with
  | nil => rw [moeScatter_nil]; rfl
  | cons v l' =>
    rw [show ((v :: l').getD 0 []).length = H from hl v (List.mem_cons_self _ _)]
    exact moeScatter_eq_map ef af mp H (v :: l') hwf

theorem decoderLayer_fst_spec (pr : Prims) (lp : LayerParams) (H : ℕ)
    (hwf : LayerWF H lp) (xs : List Vec) (hxs : ∀ v ∈ xs, v.length = H) :
    (decoderLayer pr lp [] (prepare4dCausalMask 0 xs.length) xs).1 = specLayer pr lp xs := by
  obtain ⟨hattn, hmoe, hin, hpost⟩ := hwf
  have h2rows : ∀ v ∈ List.zipWith addVec xs
      (attention pr.expF lp.attn [] (prepare4dCausalMask 0 xs.length)
        (xs.map (rmsnorm pr.rsqrtF lp.inputLayernorm pr.eps))).1, v.length = H :=
    rows_zipWith_addVec _ _ H hxs (rows_attention_out _ _ H hattn.1 _ _ _)
  have h3rows := rows_map_rmsnorm pr.rsqrtF lp.postAttentionLayernorm pr.eps _ H hpost h2rows
  show List.zipWith addVec _ (moeScatter pr.expF pr.actF lp.moe _ _) = _
  rw [specLayer]
  congr 1
  exact moeScatter_shape_eq_map_shape pr.expF pr.actF lp.moe H hmoe _ h3rows

theorem length_specLayer (pr : Prims) (lp : LayerParams) (xs : List Vec) :
    (specLayer pr lp xs).length = xs.length := by
  rw [specLayer]
  simp only [List.length_zipWith, List.length_map, length_attention_out]
  omega

theorem rows_specLayer (pr : Prims) (lp : LayerParams) (H : ℕ) (hwf : LayerWF H lp)
    (xs : List Vec) (hxs : ∀ v ∈ xs, v.length = H) :
    ∀ v ∈ specLayer pr lp xs, v.length = H := by
  rw [← decoderLayer_fst_spec pr lp H hwf xs hxs]
  exact rows_decoderLayer_out pr lp H hwf [] _ xs hxs

theorem runLayers_fst_spec (pr : Prims) (H : ℕ) : ∀ (ls : List LayerParams),
    (∀ lp ∈ ls, LayerWF H lp) → ∀ (xs : List Vec), (∀ v ∈ xs, v.length = H) →
      (runLayers pr ls [] (prepare4dCausalMask 0 xs.length) xs).1 =
        ls.foldl (fun h lp => specLayer pr lp h) xs
  | [], _, _, _ => rfl
  | lp :: ls, hwf, xs, hxs => by
    show (runLayers pr ls [] (prepare4dCausalMask 0 xs.length)
      (decoderLayer pr lp [] (prepare4dCausalMask 0 xs.length) xs).1).1 = _
    rw [decoderLayer_fst_spec pr lp H (hwf lp (List.mem_cons_self _ _)) xs hxs]
    rw [show xs.length = (specLayer pr lp xs).length from (length_specLayer pr lp xs).symm]
    exact runLayers_fst_spec pr H ls (fun l hl => hwf l (List.mem_cons_of_mem _ hl))
      (specLayer pr lp xs)
      (rows_specLayer pr lp H (hwf lp (List.mem_cons_self _ _)) xs hxs)

/-- Claim C5: `MixtralModel.forward` follows the stated architecture
exactly — embed the input tokens, apply the decoder layers in order with
`h = h + Attention(RMSNorm(h))` then `h = h + SparseMoE(RMSNorm(h))`, and
apply one final RMSNorm; the resulting last hidden state is what the LM and
classification heads consume (`causalLMForward`, `seqClsForward` and
`tokClsForward` are defined on it position-wise). -/
theorem c5_forward_architecture (pr : Prims) (p : ModelParams) (H : ℕ)
    (toks : List ℕ) (hwf : ModelWF H p) (hids : ∀ t ∈ toks, t < p.embed.length) :
    (modelForward pr p [] toks).1 = specForward pr p toks := by
  obtain ⟨hembW, hlayers, hnorm⟩ := hwf
  have hrows : ∀ v ∈ toks.map (fun t => p.embed.getD t []), v.length = H := by
    intro v hv
    obtain ⟨t, ht, rfl⟩ := List.mem_map.1 hv
    rw [List.getD_eq_getElem _ _ (hids t ht)]
    exact hembW _ (List.getElem_mem _)
  rw [modelForward_def]
  show (runLayers pr p.layers [] (prepare4dCausalMask 0 toks.length)
    (toks.map (fun t => p.embed.getD t []))).1.map (rmsnorm pr.rsqrtF p.normW pr.eps) = _
  rw [show toks.length = (toks.map (fun t => p.embed.getD t [])).length from
    (List.length_map _ _).symm]
  rw [runLayers_fst_spec pr H p.layers hlayers _ hrows]
  rfl

/-- Witness for C5 on the example model and a two-token prompt. -/
theorem c5_forward_architecture_witness :
    ModelWF 2 exampleModel ∧
      (modelForward examplePrims exampleModel [] [0, 1]).1 =
        specForward examplePrims exampleModel [0, 1] := by
  have hwfEx : ModelWF 2 exampleModel := by
    refine ⟨by decide, ?_, by decide⟩
    intro lp hlp
    have hl : lp = exampleLayer := by simpa [exampleModel] using hlp
    rw [hl]
    exact ⟨⟨by decide, by decide, by decide, by decide, by decide⟩,
      ⟨by decide, by decide, by decide, by decide⟩, by decide, by decide⟩
  exact ⟨hwfEx,
    c5_forward_architecture examplePrims exampleModel 2 [0, 1] hwfEx (by decide)⟩

/-! ## Output shape invariants of the task heads -/

theorem length_modelForward_out (pr : Prims) (p : ModelParams)
    (pasts : List (List KV)) (toks : List ℕ) :
    (modelForward pr p pasts toks).1.length = toks.length := by
  rw [modelForward_def]
  dsimp only
  rw [List.length_map, length_runLayers_out, List.length_map]

theorem seqClsPoolIdx_lt (pad : ℕ) (toks : List ℕ) (h : toks ≠ []) :
    seqClsPoolIdx pad toks < toks.length := by
  have h0 : 0 < toks.length := List.length_pos.2 h
  have hS : (0 : ℤ) < (toks.length : ℤ) := by exact_mod_cast h0
  have hnn := Int.emod_nonneg ((argmaxFirst (eqPadRow pad toks) : ℤ) - 1) (ne_of_gt hS)
  have hlt := Int.emod_lt_of_pos ((argmaxFirst (eqPadRow pad toks) : ℤ) - 1) hS
  rw [seqClsPoolIdx]
  omega

/-- Claim C3: output shape invariants per head type.  For every batched
`input_ids`, `MixtralForCausalLM` returns logits of shape
`(batch, seq_len, vocab)` (`vocab` = number of `lm_head` rows),
`MixtralForSequenceClassification` returns, whenever its forward succeeds,
pooled logits of shape `(batch, num_labels)`, and
`MixtralForTokenClassification` returns logits of shape
`(batch, seq_len, num_labels)`. -/
theorem c3_head_output_shapes (pr : Prims) (qc : CausalLMParams)
    (qs : SeqClsParams) (qt : TokClsParams) (ids : List (List ℕ))
    (hne : ∀ toks ∈ ids, toks ≠ []) (pooled : Mat)
    (hok : seqClsForward pr qs ids = .ok pooled)
    (hbias : qt.scoreBias.length = qt.score.length) :
    ((causalLMForward pr qc ids).length = ids.length ∧
      (∀ b, b < ids.length →
        ((causalLMForward pr qc ids).getD b []).length = (ids.getD b []).length) ∧
      ∀ m ∈ causalLMForward pr qc ids, ∀ v ∈ m, v.length = qc.lmHead.length) ∧
    (pooled.length = ids.length ∧ ∀ v ∈ pooled, v.length = qs.score.length) ∧
    ((tokClsForward pr qt ids).length = ids.length ∧
      (∀ b, b < ids.length →
        ((tokClsForward pr qt ids).getD b []).length = (ids.getD b []).length) ∧
      ∀ m ∈ tokClsForward pr qt ids, ∀ v ∈ m, v.length = qt.score.length) := by
  have hseqlt : ∀ b, b < ids.length →
      (seqLensOf qs.padTokenId ids).getD b 0 < (ids.getD b []).length := by
    intro b hb
    have hnei : ids.getD b [] ≠ [] := by
      refine hne _ ?_
      rw [List.getD_eq_getElem _ _ hb]
      exact List.getElem_mem _
    cases hpad : qs.padTokenId with
    | none =>
      rw [seqLensOf, getD_map _ ids b hb [] 0]
      have := List.length_pos.2 hnei
      omega
    | some pad =>
      rw [seqLensOf, getD_map _ ids b hb [] 0]
      exact seqClsPoolIdx_lt pad _ hnei
  have hpooled : pooled.length = ids.length ∧ ∀ v ∈ pooled, v.length = qs.score.length := by
    rw [seqClsForward] at hok
    split at hok
    · exact absurd hok (by simp)
    · injection hok with h
      rw [← h]
      constructor
      · rw [List.length_map, List.length_range]
      · intro v hv
        obtain ⟨b, hbr, rfl⟩ := List.mem_map.1 hv
        have hb : b < ids.length := List.mem_range.1 hbr
        rw [getD_map _ (modelForwardB pr qs.model ids) b
          (by rw [modelForwardB, List.length_map]; exact hb) [] []]
        have hlogitslen : ((modelForwardB pr qs.model ids).getD b []).length =
            (ids.getD b []).length := by
          rw [modelForwardB, getD_map _ ids b hb [] [], length_modelForward_out]
        rw [getD_map _ ((modelForwardB pr qs.model ids).getD b []) _
          (by rw [hlogitslen]; exact hseqlt b hb) [] []]
        exact length_matVec _ _
  refine ⟨⟨?_, ?_, ?_⟩, hpooled, ?_, ?_, ?_⟩
  · rw [causalLMForward, List.length_map, modelForwardB, List.length_map]
  · intro b hb
    rw [causalLMForward, modelForwardB, List.map_map]
    rw [getD_map _ ids b hb [] []]
    rw [Function.comp, List.length_map, length_modelForward_out]
  · intro m hm v hv
    rw [causalLMForward] at hm
    obtain ⟨hs, _, rfl⟩ := List.mem_map.1 hm
    obtain ⟨h0, _, rfl⟩ := List.mem_map.1 hv
    exact length_matVec _ _
  · rw [tokClsForward, List.length_map, modelForwardB, List.length_map]
  · intro b hb
    rw [tokClsForward, modelForwardB, List.map_map]
    rw [getD_map _ ids b hb [] []]
    rw [Function.comp, List.length_map, length_modelForward_out]
  · intro m hm v hv
    rw [tokClsForward] at hm
    obtain ⟨hs, _, rfl⟩ := List.mem_map.1 hm
    obtain ⟨h0, _, rfl⟩ := List.mem_map.1 hv
    rw [length_addVec, length_matVec, hbias, min_self]

/-- Witness for C3: batch `[[0, 1]]` on heads over the example model. -/
theorem c3_head_output_shapes_witness :
    ((∀ toks ∈ [[0, 1]], toks ≠ ([] : List ℕ)) ∧
      ([1, 2] : Vec).length = ([[1, 1], [0, 1]] : Mat).length) ∧
    ∃ pooled : Mat,
      seqClsForward examplePrims ⟨exampleModel, [[1, 0]], some 0⟩ [[0, 1]] = .ok pooled ∧
        pooled.length = 1 ∧ ∀ v ∈ pooled, v.length = ([[1, 0]] : Mat).length := by
  refine ⟨⟨by decide, by decide⟩, ?_⟩
  obtain ⟨pooled, hok⟩ : ∃ m, seqClsForward examplePrims
      ⟨exampleModel, [[1, 0]], some 0⟩ [[0, 1]] = .ok m := ⟨_, rfl⟩
  have h := c3_head_output_shapes examplePrims ⟨exampleModel, [[1, 1], [0, 1]]⟩
    ⟨exampleModel, [[1, 0]], some 0⟩ ⟨exampleModel, [[1, 1], [0, 1]], [1, 2]⟩ [[0, 1]]
    (by decide) pooled hok (by decide)
  refine ⟨pooled, hok, ?_, ?_⟩
  · exact h.2.1.1
  · exact h.2.1.2

/-! ### C6: rotary embedding as a planar rotation -/

/-- `getD` of a `zipWith` at an in-bounds index. -/
theorem getD_zipWith (f : ℚ → ℚ → ℚ) :
    ∀ (u v : Vec) (i : ℕ), i < u.length → i < v.length →
      (List.zipWith f u v).getD i 0 = f (u.getD i 0) (v.getD i 0) := by
  intro u
  induction u with
  | nil => intro v i hu _; simp at hu
  | cons x xs ih =>
    intro v i hu hv
    cases v with
    | nil => simp at hv
    | cons y ys =>
      cases i with
      | zero => simp
      | succ n =>
        simp only [List.zipWith_cons_cons, List.getD_cons_succ]
        exact ih ys n (by simpa using hu) (by simpa using hv)

/-- Pointwise product against a negated list. -/
theorem zipWith_mul_map_neg (b s : Vec) :
    List.zipWith (· * ·) (b.map (fun y => -y)) s =
      (List.zipWith (· * ·) b s).map (fun y => -y) := by
  induction b generalizing s with
  | nil => simp
  | cons x xs ih =>
    cases s with
    | nil => simp
    | cons y ys => simp [ih, neg_mul]

/-- Adding a negated list is pointwise subtraction. -/
theorem zipWith_add_map_neg (u v : Vec) :
    List.zipWith (· + ·) u (v.map (fun y => -y)) =
      List.zipWith (fun x y => x - y) u v := by
  induction u generalizing v with
  | nil => simp
  | cons x xs ih =>
    cases v with
    | nil => simp
    | cons y ys => simp [ih, sub_eq_add_neg]

/-- On an even-length vector written as two equal halves, `tensor_split(2, -1)`
returns the two halves, so `rotate_half (a ++ b) = (-b) ++ a`. -/
theorem rotate_half_append (a b : Vec) (h : b.length = a.length) :
    rotate_half (a ++ b) = b.map (fun y => -y) ++ a := by
  have hlen : ((a ++ b).length + 1) / 2 = a.length := by
    rw [List.length_append, h]; omega
  simp only [rotate_half, hlen]
  rw [List.take_left, List.drop_left]

/-- `q * cos + rotate_half(q) * sin` on `q = a ++ b` with duplicated
cosine/sine halves, written as the two rotated halves. -/
theorem applyRot_append (a b c s : Vec) (hab : b.length = a.length)
    (hac : c.length = a.length) (has : s.length = a.length) :
    applyRot (c ++ c) (s ++ s) (a ++ b) =
      List.zipWith (fun x y => x - y) (List.zipWith (· * ·) a c)
          (List.zipWith (· * ·) b s) ++
        List.zipWith (fun x y => x + y) (List.zipWith (· * ·) b c)
          (List.zipWith (· * ·) a s) := by
  rw [applyRot, rotate_half_append a b hab]
  rw [List.zipWith_append (· * ·) a b c c (by rw [hac])]
  rw [List.zipWith_append (· * ·) (b.map (fun y => -y)) a s s
    (by rw [List.length_map, hab, has])]
  rw [addVec, List.zipWith_append (· + ·) _ _ _ _
    (by simp [List.length_zipWith, List.length_map, hab, hac, has])]
  rw [zipWith_mul_map_neg, zipWith_add_map_neg]

/-- `sumSq` distributes over append. -/
theorem sumSq_append (u v : Vec) : sumSq (u ++ v) = sumSq u + sumSq v := by
  rw [sumSq, sumSq, sumSq, List.map_append, List.sum_append]

/-- `sumSq` on a cons. -/
theorem sumSq_cons (x : ℚ) (v : Vec) : sumSq (x :: v) = x * x + sumSq v := by
  rw [sumSq, sumSq, List.map_cons, List.sum_cons]

/-- The squared norm of the two rotated halves equals the squared norm of the
original halves whenever every cosine/sine pair lies on the unit circle. -/
theorem rot_sumSq :
    ∀ (a b c s : Vec), b.length = a.length → c.length = a.length →
      s.length = a.length →
      (∀ i, i < a.length →
        c.getD i 0 * c.getD i 0 + s.getD i 0 * s.getD i 0 = 1) →
      sumSq (List.zipWith (fun x y => x - y) (List.zipWith (· * ·) a c)
          (List.zipWith (· * ·) b s)) +
        sumSq (List.zipWith (fun x y => x + y) (List.zipWith (· * ·) b c)
          (List.zipWith (· * ·) a s)) =
        sumSq a + sumSq b := by
  intro a
  induction a with
  | nil =>
    intro b c s hb hc hs _
    rw [List.length_nil] at hb hc hs
    rw [List.length_eq_zero.1 hb, List.length_eq_zero.1 hc, List.length_eq_zero.1 hs]
    simp [sumSq]
  | cons a0 a' ih =>
    intro b c s hb hc hs hunit
    cases b with
    | nil => simp at hb
    | cons b0 b' =>
      cases c with
      | nil => simp at hc
      | cons c0 c' =>
        cases s with
        | nil => simp at hs
        | cons s0 s' =>
          have h0 := hunit 0 (by simp)
          simp only [List.getD_cons_zero] at h0
          have htail := ih b' c' s' (by simpa using hb) (by simpa using hc)
            (by simpa using hs) (fun i hi => by
              have := hunit (i + 1) (by simpa using Nat.succ_lt_succ hi)
              simpa [List.getD_cons_succ] using this)
          simp only [List.zipWith_cons_cons, sumSq_cons]
          linear_combination htail + (a0 * a0 + b0 * b0) * h0

/-- Claim C6: `apply_rotary_pos_emb` is a planar rotation.  For a head
vector `a ++ b` of even length `2d` and duplicated cosine/sine halves
`c ++ c`, `s ++ s` (the `cat(freqs, freqs)` layout of
`MixtralRotaryEmbedding._set_cos_sin_cache`), the map
`q ↦ q * cos + rotate_half(q) * sin` sends the coordinate pair
`(x_i, x_{d+i})` to `(x_i c_i - x_{d+i} s_i, x_{d+i} c_i + x_i s_i)` — the
planar rotation with cosine `c_i` and sine `s_i` — and whenever every pair
satisfies `c_i^2 + s_i^2 = 1` it preserves the squared Euclidean norm. -/
theorem c6_rotary_planar_rotation (a b c s : Vec)
    (hab : b.length = a.length) (hac : c.length = a.length)
    (has : s.length = a.length)
    (hunit : ∀ i, i < a.length →
      c.getD i 0 * c.getD i 0 + s.getD i 0 * s.getD i 0 = 1) :
    (∀ i, i < a.length →
      (applyRot (c ++ c) (s ++ s) (a ++ b)).getD i 0 =
          a.getD i 0 * c.getD i 0 - b.getD i 0 * s.getD i 0 ∧
        (applyRot (c ++ c) (s ++ s) (a ++ b)).getD (a.length + i) 0 =
          b.getD i 0 * c.getD i 0 + a.getD i 0 * s.getD i 0) ∧
    sumSq (applyRot (c ++ c) (s ++ s) (a ++ b)) = sumSq (a ++ b) := by
  have hmain := applyRot_append a b c s hab hac has
  have hXlen : (List.zipWith (fun x y => x - y) (List.zipWith (· * ·) a c)
      (List.zipWith (· * ·) b s)).length = a.length := by
    simp [List.length_zipWith, hab, hac, has]
  constructor
  · intro i hi
    constructor
    · rw [hmain, List.getD_append _ _ _ _ (by rw [hXlen]; exact hi)]
      rw [getD_zipWith _ _ _ i
        (by simp only [List.length_zipWith, hac, min_self]; exact hi)
        (by simp only [List.length_zipWith, hab, has, min_self]; exact hi)]
      rw [getD_zipWith _ a c i hi (by rw [hac]; exact hi)]
      rw [getD_zipWith _ b s i (by rw [hab]; exact hi) (by rw [has]; exact hi)]
    · rw [hmain, List.getD_append_right _ _ _ _ (by rw [hXlen]; omega)]
      rw [hXlen, Nat.add_sub_cancel_left]
      rw [getD_zipWith _ _ _ i
        (by simp only [List.length_zipWith, hab, hac, min_self]; exact hi)
        (by simp only [List.length_zipWith, has, min_self]; exact hi)]
      rw [getD_zipWith _ b c i (by rw [hab]; exact hi) (by rw [hac]; exact hi)]
      rw [getD_zipWith _ a s i hi (by rw [has]; exact hi)]
  · rw [hmain, sumSq_append, sumSq_append a b]
    exact rot_sumSq a b c s hab hac has hunit

/-- Witness for C6: `a = [3]`, `b = [4]`, `cos = [3/5]`, `sin = [4/5]`;
the squared norm 25 is preserved. -/
theorem c6_rotary_planar_rotation_witness :
    (∀ i, i < ([3] : Vec).length →
      ([3/5] : Vec).getD i 0 * ([3/5] : Vec).getD i 0 +
        ([4/5] : Vec).getD i 0 * ([4/5] : Vec).getD i 0 = 1) ∧
    sumSq (applyRot (([3/5] : Vec) ++ [3/5]) (([4/5] : Vec) ++ [4/5])
        (([3] : Vec) ++ [4])) = sumSq (([3] : Vec) ++ [4]) := by
  have hu : ∀ i, i < ([3] : Vec).length →
      ([3/5] : Vec).getD i 0 * ([3/5] : Vec).getD i 0 +
        ([4/5] : Vec).getD i 0 * ([4/5] : Vec).getD i 0 = 1 := by
    intro i hi
    have h0 : i = 0 := by simpa using hi
    subst h0
    simp only [List.getD_cons_zero]
    norm_num
  exact ⟨hu, (c6_rotary_planar_rotation [3] [4] [3/5] [4/5] rfl rfl rfl hu).2⟩

/-! ### C7: the raise sites of the forward path -/

/-- `bind` on a succeeded `Except` computation runs the continuation. -/
theorem except_bind_ok {α β : Type} (a : α) (f : α → Except FwdError β) :
    (Except.ok a : Except FwdError α) >>= f = f a := rfl

/-- Folding `addVec` over vectors of one length keeps that length. -/
theorem length_foldl_addVec_eq : ∀ (L : List Vec) (acc : Vec) (d : ℕ),
    acc.length = d → (∀ v ∈ L, v.length = d) → (L.foldl addVec acc).length = d
  | [], _, _, ha, _ => ha
  | v :: L, acc, d, ha, hL => by
    rw [List.foldl_cons]
    exact length_foldl_addVec_eq L (addVec acc v) d
      (by rw [length_addVec, ha, hL v (List.mem_cons_self _ _), min_self])
      (fun w hw => hL w (List.mem_cons_of_mem _ hw))

/-- A weighted sum of value vectors of length `d` has length `d`. -/
theorem length_weightedSum (d : ℕ) (ws : List ℚ) (vs : List Vec)
    (hvs : ∀ v ∈ vs, v.length = d) : (weightedSum d ws vs).length = d := by
  rw [weightedSum]
  refine length_foldl_addVec_eq _ _ d (length_zeros d) ?_
  intro v hv
  rw [List.mem_iff_getElem] at hv
  obtain ⟨i, hi, rfl⟩ := hv
  rw [List.getElem_zipWith, length_smul]
  exact hvs _ (List.getElem_mem _)

/-- Under the configured head counts and value-head lengths, every entry of
the head tensor has `num_heads` rows of length `head_dim` — the shapes the
three assertions of `MixtralAttention.forward` test. -/
theorem attnAllHeads_rows (ef : ℚ → ℚ) (p : AttnParams) (kvs : List KV)
    (hkv : ∀ kv ∈ kvs, ∀ i, i < p.numKVHeads → (kv.2.getD i []).length = p.headDim)
    (hkv0 : 0 < p.numKVHeads)
    (hdiv : p.numKVHeads * (p.numHeads / p.numKVHeads) = p.numHeads) :
    ∀ (xs : List Vec) (pos : ℕ) (mask : List (List Bool)),
      ∀ hs ∈ attnAllHeads ef p kvs pos mask xs,
        hs.length = p.numHeads ∧ ∀ v ∈ hs, v.length = p.headDim
  | [], _, _ => by intro hs h; simp [attnAllHeads] at h
  | x :: xs, pos, mask => by
    intro hs hmem
    rw [attnAllHeads] at hmem
    rcases List.mem_cons.1 hmem with h | h
    · subst h
      constructor
      · rw [attnHeadVecs, List.length_map, List.length_range]
      · intro v hv
        rw [attnHeadVecs] at hv
        obtain ⟨h, hh, rfl⟩ := List.mem_map.1 hv
        have hh' : h < p.numHeads := List.mem_range.1 hh
        dsimp only
        refine length_weightedSum _ _ _ ?_
        intro w hw
        obtain ⟨kv, hkvmem, rfl⟩ := List.mem_map.1 hw
        exact hkv kv hkvmem _ (kvHead_lt p h hh' hkv0 hdiv)
    · exact attnAllHeads_rows ef p kvs hkv hkv0 hdiv xs (pos + 1) mask.tail hs h

/-- With a layer index and a well-shaped mask, the explicit-error attention
succeeds: the cache check and all three shape assertions pass and the result
is the plain `attention`. -/
theorem attentionE_ok (ef : ℚ → ℚ) (p : AttnParams) (H : ℕ) (hwf : AttnWF H p)
    (i : ℕ) (mask : List (List Bool)) (xs : List Vec)
    (hm1 : mask.length = xs.length) (hm2 : ∀ r ∈ mask, r.length = xs.length) :
    attentionE ef p (some i) (some []) mask xs = .ok (attention ef p [] mask xs) := by
  obtain ⟨ho, hv, hkv0, hh0, hdiv⟩ := hwf
  have hlen : (([] : List KV) ++ kvSeq p ([] : List KV).length xs).length =
      ([] : List KV).length + xs.length := by
    rw [List.nil_append, length_kvSeq, List.length_nil, Nat.zero_add]
  have hrows : ∀ hs ∈ attnAllHeads ef p
      (([] : List KV) ++ kvSeq p ([] : List KV).length xs)
      ([] : List KV).length mask xs,
      hs.length = p.numHeads ∧ ∀ v ∈ hs, v.length = p.headDim := by
    refine attnAllHeads_rows ef p _ ?_ hkv0 hdiv xs _ mask
    intro kv hkvmem j hj
    rw [List.nil_append] at hkvmem
    exact kvSeq_val_len p hv xs ([] : List KV).length kv hkvmem j hj
  simp only [attentionE, Option.getD_some]
  rw [if_neg (not_not_intro hlen)]
  rw [if_neg (not_not_intro ⟨hm1, fun r hr => by
    rw [List.length_nil, Nat.zero_add]; exact hm2 r hr⟩)]
  rw [if_neg (not_not_intro hrows)]
  rfl

/-- With a layer index, no incoming cache and a well-shaped mask, the
explicit-error decoder layer succeeds and computes the plain layer. -/
theorem decoderLayerE_ok (pr : Prims) (lp : LayerParams) (H : ℕ)
    (hwf : LayerWF H lp) (i : ℕ) (mask : List (List Bool)) (xs : List Vec)
    (hm1 : mask.length = xs.length) (hm2 : ∀ r ∈ mask, r.length = xs.length) :
    decoderLayerE pr lp (some i) (some []) mask xs =
      .ok (decoderLayer pr lp [] mask xs) := by
  have ha := attentionE_ok pr.expF lp.attn H hwf.1 i mask
    (xs.map (rmsnorm pr.rsqrtF lp.inputLayernorm pr.eps))
    (by rw [List.length_map]; exact hm1)
    (fun r hr => by rw [List.length_map]; exact hm2 r hr)
  simp only [decoderLayerE]
  rw [ha, except_bind_ok]
  rfl

/-- The explicit-error decoder loop of a fresh pass (no caches) succeeds on
well-formed layers under the causal mask of the run. -/
theorem runLayersE_ok (pr : Prims) (H : ℕ) : ∀ (ls : List LayerParams) (i : ℕ)
    (xs : List Vec), (∀ lp ∈ ls, LayerWF H lp) →
    runLayersE pr ls i [] (prepare4dCausalMask 0 xs.length) xs =
      .ok (runLayers pr ls [] (prepare4dCausalMask 0 xs.length) xs)
  | [], _, xs, _ => rfl
  | lp :: rest, i, xs, hwf => by
    have hmask1 : (prepare4dCausalMask 0 xs.length).length = xs.length := by
      rw [prepare4dCausalMask, List.length_map, List.length_range]
    have hmask2 : ∀ r ∈ prepare4dCausalMask 0 xs.length, r.length = xs.length := by
      intro r hr
      obtain ⟨j, _, rfl⟩ := List.mem_map.1 hr
      rw [List.length_map, List.length_range, Nat.zero_add]
    have hd := decoderLayerE_ok pr lp H (hwf lp (List.mem_cons_self _ _)) i
      (prepare4dCausalMask 0 xs.length) xs hmask1 hmask2
    have hlen : (decoderLayer pr lp [] (prepare4dCausalMask 0 xs.length) xs).1.length =
        xs.length := length_decoderLayer_out pr lp [] _ xs
    have hrec := runLayersE_ok pr H rest (i + 1)
      ((decoderLayer pr lp [] (prepare4dCausalMask 0 xs.length) xs).1)
      (fun l hl => hwf l (List.mem_cons_of_mem _ hl))
    rw [hlen] at hrec
    simp only [runLayersE, List.getD_nil, List.tail_nil]
    rw [hd, except_bind_ok]
    rw [hrec, except_bind_ok]
    rfl

/-- A fresh forward pass given `input_ids` only never raises under
well-formed weights. -/
theorem modelForwardE_ids_ok (pr : Prims) (H : ℕ) (p : ModelParams)
    (hwf : ModelWF H p) (ids : List ℕ) (e : FwdError) :
    modelForwardE pr p (some ids) none ≠ .error e := by
  simp only [modelForwardE]
  rw [runLayersE_ok pr H p.layers 0 (ids.map (fun t => p.embed.getD t [])) hwf.2.1,
    except_bind_ok]
  intro h
  exact Except.noConfusion h

/-- A fresh forward pass given `inputs_embeds` only never raises under
well-formed weights. -/
theorem modelForwardE_embs_ok (pr : Prims) (H : ℕ) (p : ModelParams)
    (hwf : ModelWF H p) (embs : List Vec) (e : FwdError) :
    modelForwardE pr p none (some embs) ≠ .error e := by
  simp only [modelForwardE]
  rw [runLayersE_ok pr H p.layers 0 embs hwf.2.1, except_bind_ok]
  intro h
  exact Except.noConfusion h

/-- Claim C7, amended: the forward path's raise sites are the three
attention shape assertions together with input-specification checks that are
not shape checks (both or neither of `input_ids`/`inputs_embeds`, a cache
without `layer_idx`, and the sequence-classification pad check).  Under
well-formed weights a fresh forward pass raises exactly on the
input-specification checks of `MixtralModel.forward`: it fails with
`bothInputs` iff both inputs are given, with `noInputs` iff neither is, and
the shape assertions never fire; neither realizable error is a shape
check. -/
theorem c7_forward_error_taxonomy (pr : Prims) (H : ℕ) (p : ModelParams)
    (hwf : ModelWF H p) (idsArg : Option (List ℕ)) (embsArg : Option (List Vec))
    (e : FwdError) :
    (modelForwardE pr p idsArg embsArg = .error e ↔
      (idsArg ≠ none ∧ embsArg ≠ none ∧ e = .bothInputs) ∨
        (idsArg = none ∧ embsArg = none ∧ e = .noInputs)) ∧
      FwdError.isShapeCheck .bothInputs = false ∧
      FwdError.isShapeCheck .noInputs = false := by
  refine ⟨?_, rfl, rfl⟩
  cases idsArg with
  | some ids =>
    cases embsArg with
    | some embs =>
      constructor
      · intro h
        simp only [modelForwardE] at h
        exact Or.inl ⟨Option.some_ne_none _, Option.some_ne_none _,
          (Except.error.inj h).symm⟩
      · rintro (⟨-, -, rfl⟩ | ⟨hnone, -, -⟩)
        · rfl
        · exact absurd hnone (Option.some_ne_none _)
    | none =>
      constructor
      · intro h
        exact absurd h (modelForwardE_ids_ok pr H p hwf ids e)
      · rintro (⟨-, hne, -⟩ | ⟨hnone, -, -⟩)
        · exact absurd rfl hne
        · exact absurd hnone (Option.some_ne_none _)
  | none =>
    cases embsArg with
    | some embs =>
      constructor
      · intro h
        exact absurd h (modelForwardE_embs_ok pr H p hwf embs e)
      · rintro (⟨hne, -, -⟩ | ⟨-, hnone, -⟩)
        · exact absurd rfl hne
        · exact absurd hnone (Option.some_ne_none _)
    | none =>
      constructor
      · intro h
        simp only [modelForwardE] at h
        exact Or.inr ⟨rfl, rfl, (Except.error.inj h).symm⟩
      · rintro (⟨hne, -, -⟩ | ⟨-, -, rfl⟩)
        · exact absurd rfl hne
        · rfl

/-- Counterexample to C7 as stated: a call of the forward path with both
`input_ids` and `inputs_embeds` raises an error that is not one of the
shape-mismatch assertions of `MixtralAttention.forward`. -/
theorem c7_forward_error_taxonomy_counterexample :
    modelForwardE examplePrims exampleModel (some [0]) (some [[1, 0]]) =
        .error .bothInputs ∧
      FwdError.isShapeCheck .bothInputs = false :=
  ⟨rfl, rfl⟩

/-- Witness for C7: the amended taxonomy instantiated at the example model,
which is well-formed at hidden size 2, on a call with neither input. -/
theorem c7_forward_error_taxonomy_witness :
    ModelWF 2 exampleModel ∧
      ((modelForwardE examplePrims exampleModel none none = .error .noInputs ↔
        ((none : Option (List ℕ)) ≠ none ∧ (none : Option (List Vec)) ≠ none ∧
            FwdError.noInputs = .bothInputs) ∨
          ((none : Option (List ℕ)) = none ∧ (none : Option (List Vec)) = none ∧
            FwdError.noInputs = .noInputs)) ∧
        FwdError.isShapeCheck .bothInputs = false ∧
        FwdError.isShapeCheck .noInputs = false) := by
  have hwfEx : ModelWF 2 exampleModel := by
    refine ⟨by decide, ?_, by decide⟩
    intro lp hlp
    have hl : lp = exampleLayer := by simpa [exampleModel] using hlp
    rw [hl]
    exact ⟨⟨by decide, by decide, by decide, by decide, by decide⟩,
      ⟨by decide, by decide, by decide, by decide⟩, by decide, by decide⟩
  exact ⟨hwfEx,
    c7_forward_error_taxonomy examplePrims 2 exampleModel hwfEx none none .noInputs⟩

end Mixtral